import Mathlib

/-
Verification of the funance lot-accounting engine (`holdings/positions/`).

Modelling conventions, used throughout:
- `decimal.Decimal` is modelled as `ℚ`.  Addition, subtraction and
  multiplication are modelled exactly (at the default context they round
  only beyond 28 significant digits).  The divisions of the split rebase,
  where the claims assert exactness, are modelled by `decDiv`: the exact
  quotient correctly rounded to the default context's 28 significant
  digits with ROUND_HALF_EVEN, which is where the engine's arithmetic
  actually drifts.  The remaining divisions (derived read-only values such
  as `interest` and `cost_basis_per_share`) are modelled exactly; the
  statements proved about them are insensitive to that rounding.
- `datetime.date` is modelled as `ℤ`, a day number: the code only compares
  dates and subtracts them to get a number of days.
- Python exceptions (the `assert` in `AvailablePurchases.offset_sale` and
  `decimal` division by zero in `Position.add_split` / `add_distribution`)
  are modelled by an `Option` result, `none` meaning the call raises.
- The in-place mutation of the Python objects is modelled by explicit state
  passing: each mutating method returns the new state next to its Python
  return value.
-/

namespace Funance

/-- Trade direction of an action (`Action = Literal["buy", "sell"]` in
`holdings/positions/action.py`). -/
inductive Act where
  | buy
  | sell
deriving DecidableEq, Repr

/-- `PositionAction` (`holdings/positions/action.py`): a single buy or sell
event for a symbol. -/
structure PositionAction where
  symbol : String
  date : ℤ
  action : Act
  quantity : ℚ
  price : ℚ
deriving DecidableEq, Repr

/-- `PositionAction.key`: the identity key `(date, action, quantity, price)`
used for deduplication. -/
def PositionAction.key (a : PositionAction) : ℤ × Act × ℚ × ℚ :=
  (a.date, a.action, a.quantity, a.price)

/-- Round a rational to an integer, half to even: `decimal`'s default
rounding mode ROUND_HALF_EVEN. -/
def roundHalfEven (x : ℚ) : ℤ :=
  let n := ⌊x⌋
  if x - n < 1 / 2 then n
  else if 1 / 2 < x - n then n + 1
  else if n % 2 = 0 then n else n + 1

/-- Round a rational to 28 significant decimal digits, half to even: the
value a `decimal` operation at the default context produces when its exact
result is `x`.  For `x ≠ 0` the magnitude is scaled into `[10^27, 10^28)`
(28-digit coefficient), rounded to an integer and scaled back. -/
def decRound (x : ℚ) : ℚ :=
  if x = 0 then 0
  else
    let e : ℤ := Int.log 10 |x|
    let scaled : ℚ := |x| * (10 : ℚ) ^ (27 - e)
    let r : ℚ := (roundHalfEven scaled : ℚ) / (10 : ℚ) ^ (27 - e)
    if x < 0 then -r else r

/-- `decimal` division at the default 28-digit context: the exact quotient,
correctly rounded.  (The divisor-zero exceptions are modelled by the
callers' guards.) -/
def decDiv (a b : ℚ) : ℚ := decRound (a / b)

/-- `PositionAction.add_split`: rebase one action by a split proportion —
quantity multiplied (exact at these magnitudes), price divided at the
default `decimal` context, i.e. rounded to 28 significant digits. -/
def PositionAction.add_split (a : PositionAction) (new_symbol : String)
    (proportion : ℚ) : PositionAction :=
  { symbol := new_symbol, date := a.date, action := a.action,
    quantity := a.quantity * proportion, price := decDiv a.price proportion }

/-- `PositionAction.copy`: field-by-field copy. -/
def PositionAction.copy (a : PositionAction) : PositionAction :=
  { symbol := a.symbol, date := a.date, action := a.action,
    quantity := a.quantity, price := a.price }

/-- `PositionSale` (`holdings/positions/sale.py`): the realized sale of (part
of) one purchase lot. -/
structure PositionSale where
  symbol : String
  quantity : ℚ
  purchase_date : ℤ
  purchase_price : ℚ
  sale_date : ℤ
  sale_price : ℚ
deriving DecidableEq, Repr

/-- `PositionSale.profit`. -/
def PositionSale.profit (s : PositionSale) : ℚ :=
  (s.sale_price - s.purchase_price) * s.quantity

/-- `PositionSale.days_held`: `(sale_date - purchase_date).days`. -/
def PositionSale.days_held (s : PositionSale) : ℤ :=
  s.sale_date - s.purchase_date

/-- `PositionSale.investment`. -/
def PositionSale.investment (s : PositionSale) : ℚ :=
  s.quantity * s.purchase_price

/-- `PositionSale.interest`: annualized return, with the year fraction taken
as `1` when `days_held` is `0` (Python: `if not self.days_held`). -/
def PositionSale.interest (s : PositionSale) : ℚ :=
  let year_percent : ℚ :=
    if s.days_held = 0 then 1 else (s.days_held : ℚ) / (365.25 : ℚ)
  s.profit / s.investment / year_percent

/-- `PositionSale.copy`. -/
def PositionSale.copy (s : PositionSale) : PositionSale :=
  { symbol := s.symbol, quantity := s.quantity,
    purchase_date := s.purchase_date, purchase_price := s.purchase_price,
    sale_date := s.sale_date, sale_price := s.sale_price }

/-- `GenerationType` (`holdings/positions/generation.py`). -/
inductive GenerationType where
  | dividend
  | longTermCapGain
  | shortTermCapGain
  | interest
  | royaltyPayment
  | returnOfCapital
  | foreignTax
  | fee
deriving DecidableEq, Repr

/-- `PositionGeneration` (`holdings/positions/generation.py`): one income
event; `cost_basis` is the owning position's cost basis stamped at
insertion time. -/
structure PositionGeneration where
  symbol : String
  date : ℤ
  generation_type : GenerationType
  amount : ℚ
  cost_basis : ℚ
deriving DecidableEq, Repr

/-- `PositionGeneration.key`: identity key `(date, generation_type, amount)`. -/
def PositionGeneration.key (g : PositionGeneration) :
    ℤ × GenerationType × ℚ :=
  (g.date, g.generation_type, g.amount)

/-- `PositionGeneration.position_percentage` (guarded against a zero stamped
cost basis). -/
def PositionGeneration.position_percentage (g : PositionGeneration) : ℚ :=
  if g.cost_basis = 0 then 0 else g.amount / g.cost_basis

/-- `PositionGeneration.copy`. -/
def PositionGeneration.copy (g : PositionGeneration) : PositionGeneration :=
  { symbol := g.symbol, date := g.date,
    generation_type := g.generation_type, amount := g.amount,
    cost_basis := g.cost_basis }

/-- `UniqueList.append` for actions (`holdings/positions/unique.py`): reject
when the identity key is already present, else append.  The Python class
keeps a membership set `_item_keys` alongside `_items`; by its constructor
and `append` that set always equals the set of keys of `_items`, so
membership is modelled as membership in the mapped key list. -/
def uniqueAppendAction (l : List PositionAction) (a : PositionAction) :
    Bool × List PositionAction :=
  if a.key ∈ l.map PositionAction.key then (false, l) else (true, l ++ [a])

/-- `ActionList.append` (`holdings/positions/action_list.py`): reject events
dated before the last entry, then fall through to the dedup gate. -/
def appendAction (l : List PositionAction) (a : PositionAction) :
    Bool × List PositionAction :=
  match l.getLast? with
  | none => uniqueAppendAction l a
  | some latest =>
      if a.date < latest.date then (false, l) else uniqueAppendAction l a

/-- `UniqueList.append` for generations. -/
def uniqueAppendGeneration (l : List PositionGeneration)
    (g : PositionGeneration) : Bool × List PositionGeneration :=
  if g.key ∈ l.map PositionGeneration.key then (false, l) else (true, l ++ [g])

/-- `GenerationList.append` (`holdings/positions/generation_list.py`). -/
def appendGeneration (l : List PositionGeneration) (g : PositionGeneration) :
    Bool × List PositionGeneration :=
  match l.getLast? with
  | none => uniqueAppendGeneration l g
  | some latest =>
      if g.date < latest.date then (false, l) else uniqueAppendGeneration l g

/-- `ActionList.add_split` / `AvailablePurchases.add_split`: rebase every
contained action. -/
def addSplitActions (l : List PositionAction) (new_symbol : String)
    (proportion : ℚ) : List PositionAction :=
  l.map (fun a => a.add_split new_symbol proportion)

/-- `AvailablePurchases.offset_sale`
(`holdings/positions/available_purchases.py`): consume open lots from the
head of the deque until the sale quantity is matched.  The deque is the
`List` argument (head = oldest lot), the loop's `quantity - found_quantity`
is the `remaining` argument, and the generator is eager because
`SaleList.__init__` immediately builds `list(sales)`.  `none` models the
`assert len(self._actions) > 0` failing.  In the final branch
`delta = remaining` (a head lot left with nonzero quantity forces
`min purchase.quantity remaining = remaining`), so the Python loop exits
with the partially consumed lot left as the new head. -/
def offset_sale (date : ℤ) (price : ℚ) :
    List PositionAction → ℚ → Option (List PositionSale × List PositionAction)
  | actions, remaining =>
    if remaining ≤ 0 then some ([], actions)
    else
      match actions with
      | [] => none
      | purchase :: rest =>
          let delta := min purchase.quantity remaining
          let sale : PositionSale :=
            { symbol := purchase.symbol, quantity := delta,
              purchase_date := purchase.date, purchase_price := purchase.price,
              sale_date := date, sale_price := price }
          if purchase.quantity - delta = 0 then
            match offset_sale date price rest (remaining - delta) with
            | none => none
            | some (sales, rest2) => some (sale :: sales, rest2)
          else
            some ([sale], { purchase with quantity := purchase.quantity - delta } :: rest)

/-- `Position` (`holdings/positions/position.py`). -/
structure Position where
  symbol : String
  actions : List PositionAction
  generations : List PositionGeneration
  quantity : ℚ
  cost_basis : ℚ
  available_purchases : List PositionAction
  sales : List PositionSale
deriving DecidableEq, Repr

/-- `Position(symbol)` with all defaults: empty ledgers, zero totals. -/
def Position.init (symbol : String) : Position :=
  { symbol := symbol, actions := [], generations := [], quantity := 0,
    cost_basis := 0, available_purchases := [], sales := [] }

/-- `Position.add_buy`: append to the action ledger; on success copy the
event into the open-lot queue and grow `cost_basis` / `quantity`. -/
def Position.add_buy (p : Position) (date : ℤ) (quantity price : ℚ) :
    Position × Option PositionAction :=
  let action : PositionAction :=
    { symbol := p.symbol, date := date, action := Act.buy,
      quantity := quantity, price := price }
  match appendAction p.actions action with
  | (false, _) => (p, none)
  | (true, acts) =>
      ({ p with
          actions := acts,
          available_purchases := p.available_purchases ++ [action.copy],
          cost_basis := p.cost_basis + action.quantity * action.price,
          quantity := p.quantity + action.quantity },
        some action)

/-- The `for sale in sales` loop of `Position.add_sale`: subtract each
matched lot's quantity and notional (at the purchase price) from the
position's running totals. -/
def applySales (p : Position) (sales : List PositionSale) : Position :=
  sales.foldl
    (fun q s =>
      { q with cost_basis := q.cost_basis - s.quantity * s.purchase_price,
               quantity := q.quantity - s.quantity })
    p

/-- `Position.add_sale`: append to the action ledger; on success offset the
sale against the open-lot queue (which may raise, hence the outer `Option`)
and realize FIFO cost. -/
def Position.add_sale (p : Position) (date : ℤ) (quantity price : ℚ) :
    Option (Position × Option PositionAction × List PositionSale) :=
  let action : PositionAction :=
    { symbol := p.symbol, date := date, action := Act.sell,
      quantity := quantity, price := price }
  match appendAction p.actions action with
  | (false, _) => some (p, none, [])
  | (true, acts) =>
      match offset_sale date price p.available_purchases quantity with
      | none => none
      | some (sales, lots) =>
          some (applySales { p with actions := acts, available_purchases := lots } sales,
            some action, sales)

/-- `Position.add_generation`: stamp the current cost basis and append under
the same dedup/ordering gate. -/
def Position.add_generation (p : Position) (date : ℤ) (t : GenerationType)
    (amount : ℚ) : Position × Option PositionGeneration :=
  let g : PositionGeneration :=
    { symbol := p.symbol, date := date, generation_type := t,
      amount := amount, cost_basis := p.cost_basis }
  match appendGeneration p.generations g with
  | (false, _) => (p, none)
  | (true, gens) => ({ p with generations := gens }, some g)

/-- `Position.add_split`: rename the symbol, rebase ledger and open lots by
`proportion = new_quantity / quantity`, set `quantity := new_quantity`,
leave `cost_basis` untouched.  `none` models the `decimal` exceptions: the
division `new_quantity / self.quantity` raises when `quantity = 0`, and when
the proportion is `0` (that is `new_quantity = 0` with `quantity ≠ 0`) the
eager rebase raises on the first event's `price / proportion`, so the call
raises exactly when some action or open lot exists. -/
def Position.add_split (p : Position) (new_symbol : String)
    (new_quantity : ℚ) : Option Position :=
  if p.quantity = 0 then none
  else if new_quantity = 0 ∧ (p.actions ≠ [] ∨ p.available_purchases ≠ []) then none
  else
    let proportion := decDiv new_quantity p.quantity
    some { p with
        symbol := new_symbol, quantity := new_quantity,
        actions := addSplitActions p.actions new_symbol proportion,
        available_purchases :=
          addSplitActions p.available_purchases new_symbol proportion }

/-- `Position.add_distribution`: a same-symbol split with
`new_quantity = quantity + new_shares`; raises under the same conditions as
`Position.add_split`. -/
def Position.add_distribution (p : Position) (new_shares : ℚ) :
    Option Position :=
  if p.quantity = 0 then none
  else
    let new_quantity := p.quantity + new_shares
    if new_quantity = 0 ∧ (p.actions ≠ [] ∨ p.available_purchases ≠ []) then none
    else
      let proportion := decDiv new_quantity p.quantity
      some { p with
          quantity := new_quantity,
          actions := addSplitActions p.actions p.symbol proportion,
          available_purchases :=
            addSplitActions p.available_purchases p.symbol proportion }

/-- `PositionAction.to_python` output (`PositionActionDict`): the action's
fields plus the derived `total`. -/
structure PositionActionDict where
  symbol : String
  date : ℤ
  action : Act
  quantity : ℚ
  price : ℚ
  total : ℚ
deriving DecidableEq, Repr

/-- `PositionAction.to_python`. -/
def PositionAction.to_python (a : PositionAction) : PositionActionDict :=
  { symbol := a.symbol, date := a.date, action := a.action,
    quantity := a.quantity, price := a.price,
    total := a.quantity * a.price }

/-- `PositionAction.from_python`. -/
def PositionAction.from_python (r : PositionActionDict) : PositionAction :=
  { symbol := r.symbol, date := r.date, action := r.action,
    quantity := r.quantity, price := r.price }

/-- `PositionSale.to_python` output (`PositionSaleDict`): the sale's fields
plus the derived `profit` and `interest`. -/
structure PositionSaleDict where
  symbol : String
  quantity : ℚ
  purchase_date : ℤ
  purchase_price : ℚ
  sale_date : ℤ
  sale_price : ℚ
  profit : ℚ
  interest : ℚ
deriving DecidableEq, Repr

/-- `PositionSale.to_python`. -/
def PositionSale.to_python (s : PositionSale) : PositionSaleDict :=
  { symbol := s.symbol, quantity := s.quantity,
    purchase_date := s.purchase_date, purchase_price := s.purchase_price,
    sale_date := s.sale_date, sale_price := s.sale_price,
    profit := s.profit, interest := s.interest }

/-- `PositionSale.from_python`. -/
def PositionSale.from_python (r : PositionSaleDict) : PositionSale :=
  { symbol := r.symbol, quantity := r.quantity,
    purchase_date := r.purchase_date, purchase_price := r.purchase_price,
    sale_date := r.sale_date, sale_price := r.sale_price }

/-- `PositionGeneration.to_python` output (`PositionGenerationDict`). -/
structure PositionGenerationDict where
  symbol : String
  date : ℤ
  generation_type : GenerationType
  amount : ℚ
  cost_basis : ℚ
  percent : ℚ
deriving DecidableEq, Repr

/-- `PositionGeneration.to_python`. -/
def PositionGeneration.to_python (g : PositionGeneration) :
    PositionGenerationDict :=
  { symbol := g.symbol, date := g.date,
    generation_type := g.generation_type, amount := g.amount,
    cost_basis := g.cost_basis, percent := g.position_percentage }

/-- `PositionGeneration.from_python`. -/
def PositionGeneration.from_python (r : PositionGenerationDict) :
    PositionGeneration :=
  { symbol := r.symbol, date := r.date,
    generation_type := r.generation_type, amount := r.amount,
    cost_basis := r.cost_basis }

/-- `Position.to_python` output (`PositionDict`). -/
structure PositionDict where
  symbol : String
  quantity : ℚ
  cost_basis : ℚ
  cost_basis_per_share : ℚ
  actions : List PositionActionDict
  generations : List PositionGenerationDict
  available_purchases : List PositionActionDict
  sales : List PositionSaleDict
deriving DecidableEq, Repr

/-- `Position.to_python`. -/
def Position.to_python (p : Position) : PositionDict :=
  { symbol := p.symbol, quantity := p.quantity, cost_basis := p.cost_basis,
    cost_basis_per_share :=
      if p.quantity = 0 then 0 else p.cost_basis / p.quantity,
    actions := p.actions.map PositionAction.to_python,
    generations := p.generations.map PositionGeneration.to_python,
    available_purchases :=
      p.available_purchases.map PositionAction.to_python,
    sales := p.sales.map PositionSale.to_python }

/-- `Position.from_python`. -/
def Position.from_python (r : PositionDict) : Position :=
  { symbol := r.symbol,
    actions := r.actions.map PositionAction.from_python,
    generations := r.generations.map PositionGeneration.from_python,
    quantity := r.quantity, cost_basis := r.cost_basis,
    available_purchases :=
      r.available_purchases.map PositionAction.from_python,
    sales := r.sales.map PositionSale.from_python }

/-- `Position.copy`: deep copy of every ledger. -/
def Position.copy (p : Position) : Position :=
  { symbol := p.symbol,
    actions := p.actions.map PositionAction.copy,
    generations := p.generations.map PositionGeneration.copy,
    quantity := p.quantity, cost_basis := p.cost_basis,
    available_purchases := p.available_purchases.map PositionAction.copy,
    sales := p.sales.map PositionSale.copy }

/-- `PositionSet` (`holdings/positions/position_set.py`): the symbol-keyed
mapping of positions.  A Python `dict` preserves insertion order and has
unique keys; it is modelled as an association list where lookup finds the
first matching key, update rewrites the first matching key, and a fresh key
is appended at the end. -/
structure PositionSet where
  positions : List (String × Position)
deriving DecidableEq, Repr

/-- `dict.__getitem__` / `in` on the position mapping. -/
def lookupPos : List (String × Position) → String → Option Position
  | [], _ => none
  | (k, p) :: rest, s => if k = s then some p else lookupPos rest s

/-- `dict.__setitem__` on an existing key: rewrite its entry in place. -/
def updatePos : List (String × Position) → String → Position →
    List (String × Position)
  | [], _, _ => []
  | (k, p) :: rest, s, newP =>
      if k = s then (k, newP) :: rest else (k, p) :: updatePos rest s newP

/-- `PositionSet.ensure_position`: insert an empty position for a missing
key. -/
def PositionSet.ensure_position (ps : PositionSet) (k : String) : PositionSet :=
  match lookupPos ps.positions k with
  | some _ => ps
  | none => ⟨ps.positions ++ [(k, Position.init k)]⟩

mutual

/-- `PositionSet.add_buy`: delegate to the symbol's position; on success with
`offset_cash` set, mirror the spent cash with
`add_sale "CASH" date (quantity * price) 1 offset_cash=false`.  `none`
models an exception escaping the cash offset. -/
def PositionSet.add_buy (ps : PositionSet) (symbol : String) (date : ℤ)
    (quantity price : ℚ) (offset_cash : Bool) :
    Option (PositionSet × Option PositionAction) :=
  let ps1 := ps.ensure_position symbol
  let pos := (lookupPos ps1.positions symbol).getD (Position.init symbol)
  match pos.add_buy date quantity price with
  | (pos2, none) => some (⟨updatePos ps1.positions symbol pos2⟩, none)
  | (pos2, some action) =>
      let ps2 : PositionSet := ⟨updatePos ps1.positions symbol pos2⟩
      match offset_cash with
      | false => some (ps2, some action)
      | true =>
          match PositionSet.add_sale ps2 "CASH" date (quantity * price) 1 false with
          | none => none
          | some (ps3, _, _) => some (ps3, some action)
termination_by (cond offset_cash 1 0)

/-- `PositionSet.add_sale`: delegate to the symbol's position (which may
raise, hence `none`); on success with `offset_cash` set, mirror the proceeds
with `add_buy "CASH" date (quantity * price) 1 offset_cash=false`. -/
def PositionSet.add_sale (ps : PositionSet) (symbol : String) (date : ℤ)
    (quantity price : ℚ) (offset_cash : Bool) :
    Option (PositionSet × Option PositionAction × List PositionSale) :=
  let ps1 := ps.ensure_position symbol
  let pos := (lookupPos ps1.positions symbol).getD (Position.init symbol)
  match pos.add_sale date quantity price with
  | none => none
  | some (pos2, none, _) => some (⟨updatePos ps1.positions symbol pos2⟩, none, [])
  | some (pos2, some action, sale_list) =>
      let ps2 : PositionSet := ⟨updatePos ps1.positions symbol pos2⟩
      match offset_cash with
      | false => some (ps2, some action, sale_list)
      | true =>
          match PositionSet.add_buy ps2 "CASH" date (quantity * price) 1 false with
          | none => none
          | some (ps3, _) => some (ps3, some action, sale_list)
termination_by (cond offset_cash 1 0)

end

/-- `PositionSet.add_generation`: delegate to the symbol's position; on
success with `offset_cash` set, credit the income as a cash buy. -/
def PositionSet.add_generation (ps : PositionSet) (symbol : String) (date : ℤ)
    (t : GenerationType) (amount : ℚ) (offset_cash : Bool) :
    Option (PositionSet × Option PositionGeneration) :=
  let ps1 := ps.ensure_position symbol
  let pos := (lookupPos ps1.positions symbol).getD (Position.init symbol)
  match pos.add_generation date t amount with
  | (pos2, none) => some (⟨updatePos ps1.positions symbol pos2⟩, none)
  | (pos2, some g) =>
      let ps2 : PositionSet := ⟨updatePos ps1.positions symbol pos2⟩
      match offset_cash with
      | false => some (ps2, some g)
      | true =>
          match PositionSet.add_buy ps2 "CASH" date g.amount 1 false with
          | none => none
          | some (ps3, _) => some (ps3, some g)

/-- `PositionSet.to_python`. -/
def PositionSet.to_python (ps : PositionSet) : List (String × PositionDict) :=
  ps.positions.map (fun kv => (kv.1, kv.2.to_python))

/-- `PositionSet.from_python`. -/
def PositionSet.from_python (r : List (String × PositionDict)) : PositionSet :=
  ⟨r.map (fun kv => (kv.1, Position.from_python kv.2))⟩

/-- `PositionSet.copy`: deep copy of every contained position. -/
def PositionSet.copy (ps : PositionSet) : PositionSet :=
  ⟨ps.positions.map (fun kv => (kv.1, kv.2.copy))⟩

/-- A canonical buy / sell / income event fed to a `PositionSet`, as produced
by the statement parsers. -/
inductive Ev where
  | buy (symbol : String) (date : ℤ) (quantity price : ℚ)
  | sell (symbol : String) (date : ℤ) (quantity price : ℚ)
  | gen (symbol : String) (date : ℤ) (t : GenerationType) (amount : ℚ)
deriving DecidableEq, Repr

/-- Apply one event to a `PositionSet` with cash offsetting enabled. -/
def applyEvent (ps : PositionSet) : Ev → Option PositionSet
  | Ev.buy s d q pr => (ps.add_buy s d q pr true).map Prod.fst
  | Ev.sell s d q pr => (ps.add_sale s d q pr true).map Prod.fst
  | Ev.gen s d t a => (ps.add_generation s d t a true).map Prod.fst

/-- Apply an ordered event stream to a `PositionSet`, stopping at the first
exception. -/
def applyStream (ps : PositionSet) : List Ev → Option PositionSet
  | [] => some ps
  | e :: es =>
      match applyEvent ps e with
      | none => none
      | some ps2 => applyStream ps2 es

/-- A buy / sell event applied directly to one `Position`. -/
inductive PosEv where
  | pbuy (date : ℤ) (quantity price : ℚ)
  | psell (date : ℤ) (quantity price : ℚ)
deriving DecidableEq, Repr

/-- Apply one buy / sell event to a `Position`. -/
def applyPosEv (p : Position) : PosEv → Option Position
  | PosEv.pbuy d q pr => some (p.add_buy d q pr).1
  | PosEv.psell d q pr => (p.add_sale d q pr).map (fun r => r.1)

/-- Apply a list of buy / sell events to a `Position`. -/
def runPosEvents (p : Position) : List PosEv → Option Position
  | [] => some p
  | e :: es =>
      match applyPosEv p e with
      | none => none
      | some p2 => runPosEvents p2 es

/-- Total remaining quantity of a list of open lots. -/
def sumQ (l : List PositionAction) : ℚ :=
  (l.map PositionAction.quantity).sum

/-- Total notional value (`quantity * price`) of a list of open lots. -/
def sumNotional (l : List PositionAction) : ℚ :=
  (l.map (fun a => a.quantity * a.price)).sum

/-- Total quantity of a list of realized sale records. -/
def salesQ (l : List PositionSale) : ℚ :=
  (l.map PositionSale.quantity).sum

/-- Total realized cost (`quantity * purchase_price`) of a list of sale
records. -/
def salesCost (l : List PositionSale) : ℚ :=
  (l.map (fun s => s.quantity * s.purchase_price)).sum

/-- The spec's position invariant: `quantity` is the total remaining
quantity of the open lots and `cost_basis` their total notional value. -/
def Position.LotInvariant (p : Position) : Prop :=
  p.quantity = sumQ p.available_purchases ∧
    p.cost_basis = sumNotional p.available_purchases

/-- The FIFO consumption contract, written after the words of the spec
(section 4.2) for comparison with `offset_sale`: pop lots from the head,
splitting the head lot when the sale quantity is smaller than its remaining
quantity (leaving a remainder as the new head), producing one sale record
per lot (or partial lot) consumed until the full quantity is matched, and
failing when the queue is exhausted first. -/
def consumeSpec (date : ℤ) (price : ℚ) :
    List PositionAction → ℚ → Option (List PositionSale × List PositionAction)
  | lots, n =>
    if n ≤ 0 then some ([], lots)
    else
      match lots with
      | [] => none
      | l :: rest =>
          let record : ℚ → PositionSale := fun q =>
            { symbol := l.symbol, quantity := q, purchase_date := l.date,
              purchase_price := l.price, sale_date := date,
              sale_price := price }
          if n < l.quantity then
            some ([record n], { l with quantity := l.quantity - n } :: rest)
          else
            match consumeSpec date price rest (n - l.quantity) with
            | none => none
            | some (sales, rest2) => some (record l.quantity :: sales, rest2)

/-- The action ledger of a symbol inside a `PositionSet` (empty when the
symbol has no position yet). -/
def actsOf (ps : PositionSet) (s : String) : List PositionAction :=
  ((lookupPos ps.positions s).map Position.actions).getD []

/-- The income ledger of a symbol inside a `PositionSet`. -/
def gensOf (ps : PositionSet) (s : String) : List PositionGeneration :=
  ((lookupPos ps.positions s).map Position.generations).getD []

/-- The condition under which a gated ledger `append` rejects a candidate
with identity key `k` and date `d`: the key is already present, or the date
strictly precedes the last entry's date. -/
def WillReject {α κ : Type} (key : α → κ) (date : α → ℤ) (l : List α)
    (k : κ) (d : ℤ) : Prop :=
  k ∈ l.map key ∨ ∃ b, l.getLast? = some b ∧ d < date b

/-- `l2` extends `l` as a ledger: every identity key survives and the last
entry's date never decreases.  Every successful gated append, and hence
every engine operation, moves each ledger along this relation. -/
def GrowsBy {α κ : Type} (key : α → κ) (date : α → ℤ) (l l2 : List α) :
    Prop :=
  (∀ k, k ∈ l.map key → k ∈ l2.map key) ∧
    (∀ b, l.getLast? = some b → ∃ c, l2.getLast? = some c ∧ date b ≤ date c)

/-- Both ledgers of every symbol grow across an operation on a
`PositionSet`. -/
def SetGrows (ps ps2 : PositionSet) : Prop :=
  ∀ s, GrowsBy PositionAction.key PositionAction.date (actsOf ps s) (actsOf ps2 s) ∧
    GrowsBy PositionGeneration.key PositionGeneration.date (gensOf ps s) (gensOf ps2 s)

/-- The event's target ledger in `ps` rejects the event (duplicate key or
stale date). -/
def EvRejected (ps : PositionSet) : Ev → Prop
  | Ev.buy s d q pr =>
      WillReject PositionAction.key PositionAction.date (actsOf ps s)
        (d, Act.buy, q, pr) d
  | Ev.sell s d q pr =>
      WillReject PositionAction.key PositionAction.date (actsOf ps s)
        (d, Act.sell, q, pr) d
  | Ev.gen s d t a =>
      WillReject PositionGeneration.key PositionGeneration.date (gensOf ps s)
        (d, t, a) d

@[simp]
lemma sumQ_nil : sumQ [] = 0 := rfl

@[simp]
lemma sumQ_cons (a : PositionAction) (l : List PositionAction) :
    sumQ (a :: l) = a.quantity + sumQ l := by
  simp [sumQ]

@[simp]
lemma sumNotional_nil : sumNotional [] = 0 := rfl

@[simp]
lemma sumNotional_cons (a : PositionAction) (l : List PositionAction) :
    sumNotional (a :: l) = a.quantity * a.price + sumNotional l := by
  simp [sumNotional]

@[simp]
lemma salesQ_nil : salesQ [] = 0 := rfl

@[simp]
lemma salesQ_cons (s : PositionSale) (l : List PositionSale) :
    salesQ (s :: l) = s.quantity + salesQ l := by
  simp [salesQ]

@[simp]
lemma salesCost_nil : salesCost [] = 0 := rfl

@[simp]
lemma salesCost_cons (s : PositionSale) (l : List PositionSale) :
    salesCost (s :: l) = s.quantity * s.purchase_price + salesCost l := by
  simp [salesCost]

@[simp]
lemma action_roundtrip (a : PositionAction) :
    PositionAction.from_python a.to_python = a := rfl

@[simp]
lemma action_copy_id (a : PositionAction) : a.copy = a := rfl

@[simp]
lemma sale_roundtrip (s : PositionSale) :
    PositionSale.from_python s.to_python = s := rfl

@[simp]
lemma sale_copy_id (s : PositionSale) : s.copy = s := rfl

@[simp]
lemma generation_roundtrip (g : PositionGeneration) :
    PositionGeneration.from_python g.to_python = g := rfl

@[simp]
lemma generation_copy_id (g : PositionGeneration) : g.copy = g := rfl

lemma applySales_eq : ∀ (sales : List PositionSale) (p : Position),
    applySales p sales =
      { p with quantity := p.quantity - salesQ sales,
               cost_basis := p.cost_basis - salesCost sales }
  | [], p => by simp [applySales]
  | s :: ss, p => by
      have ih := applySales_eq ss
        { p with cost_basis := p.cost_basis - s.quantity * s.purchase_price,
                 quantity := p.quantity - s.quantity }
      simp only [applySales, List.foldl_cons] at ih ⊢
      rw [ih]
      simp only [salesQ_cons, salesCost_cons]
      congr 1 <;> ring

lemma growsBy_refl {α κ : Type} (key : α → κ) (date : α → ℤ) (l : List α) :
    GrowsBy key date l l :=
  ⟨fun _ h => h, fun b h => ⟨b, h, le_refl _⟩⟩

lemma growsBy_trans {α κ : Type} {key : α → κ} {date : α → ℤ}
    {l l2 l3 : List α} (h1 : GrowsBy key date l l2)
    (h2 : GrowsBy key date l2 l3) : GrowsBy key date l l3 := by
  refine ⟨fun k hk => h2.1 k (h1.1 k hk), fun b hb => ?_⟩
  obtain ⟨c, hc, hbc⟩ := h1.2 b hb
  obtain ⟨e, he, hce⟩ := h2.2 c hc
  exact ⟨e, he, le_trans hbc hce⟩

lemma growsBy_append {α κ : Type} (key : α → κ) (date : α → ℤ)
    (l : List α) (a : α) (h : ∀ b, l.getLast? = some b → date b ≤ date a) :
    GrowsBy key date l (l ++ [a]) := by
  constructor
  · intro k hk
    simp only [List.map_append, List.mem_append]
    exact Or.inl hk
  · intro b hb
    exact ⟨a, List.getLast?_concat l, h b hb⟩

lemma willReject_mono {α κ : Type} {key : α → κ} {date : α → ℤ}
    {l l2 : List α} {k : κ} {d : ℤ} (hg : GrowsBy key date l l2) :
    WillReject key date l k d → WillReject key date l2 k d := by
  rintro (hk | ⟨b, hb, hd⟩)
  · exact Or.inl (hg.1 k hk)
  · obtain ⟨c, hc, hbc⟩ := hg.2 b hb
    exact Or.inr ⟨c, hc, lt_of_lt_of_le hd hbc⟩

lemma appendAction_spec (l : List PositionAction) (a : PositionAction) :
    (WillReject PositionAction.key PositionAction.date l a.key a.date ∧
      appendAction l a = (false, l)) ∨
    (¬ WillReject PositionAction.key PositionAction.date l a.key a.date ∧
      appendAction l a = (true, l ++ [a]) ∧
      ∀ b, l.getLast? = some b → b.date ≤ a.date) := by
  unfold appendAction uniqueAppendAction
  cases h : l.getLast? with
  | none =>
      by_cases hk : a.key ∈ l.map PositionAction.key
      · exact Or.inl ⟨Or.inl hk, by simp [hk]⟩
      · refine Or.inr ⟨?_, by simp [hk], ?_⟩
        · rintro (hk2 | ⟨b, hb, _⟩)
          · exact hk hk2
          · rw [h] at hb
            exact Option.noConfusion hb
        · intro b hb
          exact Option.noConfusion hb
  | some latest =>
      by_cases hd : a.date < latest.date
      · exact Or.inl ⟨Or.inr ⟨latest, h, hd⟩, by simp [hd]⟩
      · by_cases hk : a.key ∈ l.map PositionAction.key
        · exact Or.inl ⟨Or.inl hk, by simp [hd, hk]⟩
        · refine Or.inr ⟨?_, by simp [hd, hk], ?_⟩
          · rintro (hk2 | ⟨b, hb, hd2⟩)
            · exact hk hk2
            · rw [h] at hb
              obtain rfl : latest = b := Option.some.inj hb
              exact hd hd2
          · intro b hb
            obtain rfl : latest = b := Option.some.inj hb
            exact not_lt.mp hd

lemma appendGeneration_spec (l : List PositionGeneration)
    (g : PositionGeneration) :
    (WillReject PositionGeneration.key PositionGeneration.date l g.key g.date ∧
      appendGeneration l g = (false, l)) ∨
    (¬ WillReject PositionGeneration.key PositionGeneration.date l g.key g.date ∧
      appendGeneration l g = (true, l ++ [g]) ∧
      ∀ b, l.getLast? = some b → b.date ≤ g.date) := by
  unfold appendGeneration uniqueAppendGeneration
  cases h : l.getLast? with
  | none =>
      by_cases hk : g.key ∈ l.map PositionGeneration.key
      · exact Or.inl ⟨Or.inl hk, by simp [hk]⟩
      · refine Or.inr ⟨?_, by simp [hk], ?_⟩
        · rintro (hk2 | ⟨b, hb, _⟩)
          · exact hk hk2
          · rw [h] at hb
            exact Option.noConfusion hb
        · intro b hb
          exact Option.noConfusion hb
  | some latest =>
      by_cases hd : g.date < latest.date
      · exact Or.inl ⟨Or.inr ⟨latest, h, hd⟩, by simp [hd]⟩
      · by_cases hk : g.key ∈ l.map PositionGeneration.key
        · exact Or.inl ⟨Or.inl hk, by simp [hd, hk]⟩
        · refine Or.inr ⟨?_, by simp [hd, hk], ?_⟩
          · rintro (hk2 | ⟨b, hb, hd2⟩)
            · exact hk hk2
            · rw [h] at hb
              obtain rfl : latest = b := Option.some.inj hb
              exact hd hd2
          · intro b hb
            obtain rfl : latest = b := Option.some.inj hb
            exact not_lt.mp hd

lemma appendAction_of_reject {l : List PositionAction} {a : PositionAction}
    (h : WillReject PositionAction.key PositionAction.date l a.key a.date) :
    appendAction l a = (false, l) := by
  rcases appendAction_spec l a with ⟨_, he⟩ | ⟨hn, _, _⟩
  · exact he
  · exact absurd h hn

lemma appendGeneration_of_reject {l : List PositionGeneration}
    {g : PositionGeneration}
    (h : WillReject PositionGeneration.key PositionGeneration.date l g.key g.date) :
    appendGeneration l g = (false, l) := by
  rcases appendGeneration_spec l g with ⟨_, he⟩ | ⟨hn, _, _⟩
  · exact he
  · exact absurd h hn

lemma offset_sale_eq_consumeSpec (d : ℤ) (pr : ℚ) :
    ∀ (lots : List PositionAction) (n : ℚ),
      offset_sale d pr lots n = consumeSpec d pr lots n
  | [], n => by
      by_cases h : n ≤ 0 <;> simp [offset_sale, consumeSpec, h]
  | l :: rest, n => by
      by_cases h : n ≤ 0
      · simp [offset_sale, consumeSpec, h]
      · by_cases hlt : n < l.quantity
        · have hmin : min l.quantity n = n := min_eq_right (le_of_lt hlt)
          have hne : ¬ l.quantity - n = 0 :=
            sub_ne_zero.mpr (ne_of_gt hlt)
          simp [offset_sale, consumeSpec, h, hlt, hmin, hne]
        · have hge : l.quantity ≤ n := not_lt.mp hlt
          have hmin : min l.quantity n = l.quantity := min_eq_left hge
          have ih := offset_sale_eq_consumeSpec d pr rest (n - l.quantity)
          simp [offset_sale, consumeSpec, h, hlt, hmin, ih]

lemma offset_sale_sums (d : ℤ) (pr : ℚ) :
    ∀ (lots : List PositionAction) (n : ℚ) (sales : List PositionSale)
      (lots2 : List PositionAction),
      offset_sale d pr lots n = some (sales, lots2) →
      sumQ lots2 = sumQ lots - salesQ sales ∧
        sumNotional lots2 = sumNotional lots - salesCost sales
  | [], n, sales, lots2 => by
      intro h
      rw [offset_sale.eq_def] at h
      simp only at h
      by_cases hn : n ≤ 0
      · rw [if_pos hn] at h
        have h2 := Option.some.inj h
        rw [Prod.mk.injEq] at h2
        obtain ⟨rfl, rfl⟩ := h2
        simp
      · rw [if_neg hn] at h
        exact Option.noConfusion h
  | l :: rest, n, sales, lots2 => by
      intro h
      rw [offset_sale.eq_def] at h
      simp only at h
      by_cases hn : n ≤ 0
      · rw [if_pos hn] at h
        have h2 := Option.some.inj h
        rw [Prod.mk.injEq] at h2
        obtain ⟨rfl, rfl⟩ := h2
        simp
      · rw [if_neg hn] at h
        by_cases hpop : l.quantity - min l.quantity n = 0
        · rw [if_pos hpop] at h
          cases hrec : offset_sale d pr rest (n - min l.quantity n) with
          | none => rw [hrec] at h; exact Option.noConfusion h
          | some out =>
              obtain ⟨ss, rest2⟩ := out
              rw [hrec] at h
              have h2 := Option.some.inj h
              rw [Prod.mk.injEq] at h2
              obtain ⟨rfl, rfl⟩ := h2
              obtain ⟨h1, h2⟩ := offset_sale_sums d pr rest
                (n - min l.quantity n) ss rest2 hrec
              have hql : min l.quantity n = l.quantity :=
                (sub_eq_zero.mp hpop).symm
              constructor
              · simp only [sumQ_cons, salesQ_cons, h1]
                rw [hql]
                ring
              · simp only [sumNotional_cons, salesCost_cons, h2]
                rw [hql]
                ring
        · rw [if_neg hpop] at h
          have h2 := Option.some.inj h
          rw [Prod.mk.injEq] at h2
          obtain ⟨rfl, rfl⟩ := h2
          constructor
          · simp only [sumQ_cons, salesQ_cons, salesQ_nil]
            simp
            ring
          · simp only [sumNotional_cons, salesCost_cons, salesCost_nil]
            simp
            ring

lemma sumQ_nonneg_of_pos {l : List PositionAction}
    (h : ∀ a ∈ l, 0 < a.quantity) : 0 ≤ sumQ l := by
  induction l with
  | nil => simp
  | cons a rest ih =>
      have ha := h a (List.mem_cons_self a rest)
      have hrest := ih (fun b hb => h b (List.mem_cons_of_mem a hb))
      simp only [sumQ_cons]
      linarith

lemma offset_sale_none_iff (d : ℤ) (pr : ℚ) :
    ∀ (lots : List PositionAction) (n : ℚ),
      (∀ a ∈ lots, 0 < a.quantity) →
      (offset_sale d pr lots n = none ↔ sumQ lots < n)
  | [], n => by
      intro _
      by_cases h : n ≤ 0
      · rw [offset_sale, if_pos h]
        simp only [sumQ_nil]
        constructor
        · intro hc
          exact Option.noConfusion hc
        · intro hc
          linarith
      · rw [offset_sale, if_neg h]
        simp only [sumQ_nil]
        constructor
        · intro _
          linarith
        · intro _
          trivial
  | l :: rest, n => by
      intro hpos
      have hl := hpos l (List.mem_cons_self l rest)
      have hrest : ∀ a ∈ rest, 0 < a.quantity :=
        fun b hb => hpos b (List.mem_cons_of_mem l hb)
      have hrestQ : 0 ≤ sumQ rest := sumQ_nonneg_of_pos hrest
      by_cases h : n ≤ 0
      · rw [offset_sale, if_pos h]
        simp only [sumQ_cons]
        constructor
        · intro hc
          exact Option.noConfusion hc
        · intro hc
          linarith
      · by_cases hlt : n < l.quantity
        · have hmin : min l.quantity n = n := min_eq_right (le_of_lt hlt)
          have hne : ¬ l.quantity - n = 0 := sub_ne_zero.mpr (ne_of_gt hlt)
          rw [offset_sale, if_neg h]
          simp only [hmin, hne, if_false]
          constructor
          · intro hc
            exact Option.noConfusion hc
          · intro hc
            simp only [sumQ_cons] at hc
            linarith
        · have hge : l.quantity ≤ n := not_lt.mp hlt
          have hmin : min l.quantity n = l.quantity := min_eq_left hge
          have ih := offset_sale_none_iff d pr rest (n - l.quantity) hrest
          rw [offset_sale, if_neg h]
          simp only [hmin, sub_self, if_pos rfl]
          rw [sumQ_cons]
          cases hrec : offset_sale d pr rest (n - l.quantity) with
          | none =>
              have := ih.mp hrec
              simp only [hrec]
              constructor
              · intro _
                linarith
              · intro _
                rfl
          | some out =>
              have : ¬ sumQ rest < n - l.quantity := by
                intro hc
                rw [ih.mpr hc] at hrec
                exact Option.noConfusion hrec
              simp only [hrec]
              obtain ⟨ss, r2⟩ := out
              constructor
              · intro hc
                exact Option.noConfusion hc
              · intro hc
                exact absurd (by linarith) this

lemma lookupPos_append_ne {s2 s : String} (h : s2 ≠ s) (p : Position) :
    ∀ l : List (String × Position),
      lookupPos (l ++ [(s, p)]) s2 = lookupPos l s2
  | [] => by
      have hs : ¬ s = s2 := fun hc => h hc.symm
      simp [lookupPos, hs]
  | (k, q) :: rest => by
      by_cases hk : k = s2
      · simp [lookupPos, hk]
      · simp only [List.cons_append, lookupPos, if_neg hk]
        exact lookupPos_append_ne h p rest

lemma lookupPos_append_self {s : String} (p : Position) :
    ∀ l : List (String × Position), lookupPos l s = none →
      lookupPos (l ++ [(s, p)]) s = some p
  | [] => by simp [lookupPos]
  | (k, q) :: rest => by
      intro h
      by_cases hk : k = s
      · rw [lookupPos, if_pos hk] at h
        exact Option.noConfusion h
      · rw [lookupPos, if_neg hk] at h
        simp only [List.cons_append, lookupPos, if_neg hk]
        exact lookupPos_append_self p rest h

lemma lookupPos_updatePos_self {s : String} {p0 : Position} (p : Position) :
    ∀ l : List (String × Position), lookupPos l s = some p0 →
      lookupPos (updatePos l s p) s = some p
  | [] => by simp [lookupPos]
  | (k, q) :: rest => by
      intro h
      by_cases hk : k = s
      · simp [updatePos, lookupPos, hk]
      · rw [lookupPos, if_neg hk] at h
        simp only [updatePos, if_neg hk, lookupPos]
        exact lookupPos_updatePos_self p rest h

lemma lookupPos_updatePos_ne {s2 s : String} (h : s2 ≠ s) (p : Position) :
    ∀ l : List (String × Position),
      lookupPos (updatePos l s p) s2 = lookupPos l s2
  | [] => by simp [updatePos]
  | (k, q) :: rest => by
      by_cases hk : k = s
      · subst hk
        have hk3 : ¬ k = s2 := fun hc => h hc.symm
        simp [updatePos, lookupPos, hk3]
      · simp only [updatePos, if_neg hk, lookupPos]
        by_cases hk2 : k = s2
        · simp [hk2]
        · rw [if_neg hk2, if_neg hk2]
          exact lookupPos_updatePos_ne h p rest

lemma updatePos_self_id {s : String} {p : Position} :
    ∀ l : List (String × Position), lookupPos l s = some p →
      updatePos l s p = l
  | [] => by simp [updatePos]
  | (k, q) :: rest => by
      intro h
      by_cases hk : k = s
      · rw [lookupPos, if_pos hk] at h
        obtain rfl := Option.some.inj h
        rw [updatePos, if_pos hk]
      · rw [lookupPos, if_neg hk] at h
        rw [updatePos, if_neg hk, updatePos_self_id rest h]

lemma ensure_lookup_self (ps : PositionSet) (s : String) :
    lookupPos (ps.ensure_position s).positions s =
      some ((lookupPos ps.positions s).getD (Position.init s)) := by
  unfold PositionSet.ensure_position
  cases h : lookupPos ps.positions s with
  | none => simpa using lookupPos_append_self (Position.init s) ps.positions h
  | some p => simpa using h

lemma ensure_lookup_ne {s2 s : String} (ps : PositionSet) (h : s2 ≠ s) :
    lookupPos (ps.ensure_position s).positions s2 = lookupPos ps.positions s2 := by
  unfold PositionSet.ensure_position
  cases hl : lookupPos ps.positions s with
  | none => simpa using lookupPos_append_ne h (Position.init s) ps.positions
  | some p => rfl

lemma ensure_of_present {ps : PositionSet} {s : String} {p : Position}
    (h : lookupPos ps.positions s = some p) : ps.ensure_position s = ps := by
  unfold PositionSet.ensure_position
  rw [h]

lemma actsOf_eq_getD (ps : PositionSet) (s : String) :
    actsOf ps s = ((lookupPos ps.positions s).getD (Position.init s)).actions := by
  unfold actsOf
  cases lookupPos ps.positions s <;> simp [Position.init]

lemma gensOf_eq_getD (ps : PositionSet) (s : String) :
    gensOf ps s = ((lookupPos ps.positions s).getD (Position.init s)).generations := by
  unfold gensOf
  cases lookupPos ps.positions s <;> simp [Position.init]

lemma actsOf_update_ensure_self (ps : PositionSet) (s : String)
    (pos2 : Position) :
    actsOf ⟨updatePos (ps.ensure_position s).positions s pos2⟩ s = pos2.actions := by
  unfold actsOf
  rw [lookupPos_updatePos_self pos2 _ (ensure_lookup_self ps s)]
  rfl

lemma gensOf_update_ensure_self (ps : PositionSet) (s : String)
    (pos2 : Position) :
    gensOf ⟨updatePos (ps.ensure_position s).positions s pos2⟩ s = pos2.generations := by
  unfold gensOf
  rw [lookupPos_updatePos_self pos2 _ (ensure_lookup_self ps s)]
  rfl

lemma actsOf_update_ensure_ne {s2 s : String} (ps : PositionSet)
    (h : s2 ≠ s) (pos2 : Position) :
    actsOf ⟨updatePos (ps.ensure_position s).positions s pos2⟩ s2 = actsOf ps s2 := by
  unfold actsOf
  rw [lookupPos_updatePos_ne h pos2, ensure_lookup_ne ps h]

lemma gensOf_update_ensure_ne {s2 s : String} (ps : PositionSet)
    (h : s2 ≠ s) (pos2 : Position) :
    gensOf ⟨updatePos (ps.ensure_position s).positions s pos2⟩ s2 = gensOf ps s2 := by
  unfold gensOf
  rw [lookupPos_updatePos_ne h pos2, ensure_lookup_ne ps h]

lemma Position.add_buy_facts (p : Position) (d : ℤ) (q pr : ℚ) :
    (p.add_buy d q pr).1.generations = p.generations ∧
    GrowsBy PositionAction.key PositionAction.date p.actions
      (p.add_buy d q pr).1.actions ∧
    ((p.add_buy d q pr).2 = none → (p.add_buy d q pr).1 = p ∧
      WillReject PositionAction.key PositionAction.date p.actions
        (d, Act.buy, q, pr) d) ∧
    ((p.add_buy d q pr).2 ≠ none →
      (d, Act.buy, q, pr) ∈
        ((p.add_buy d q pr).1.actions.map PositionAction.key)) := by
  rcases appendAction_spec p.actions (PositionAction.mk p.symbol d Act.buy q pr)
    with ⟨hwr, heq⟩ | ⟨hnr, heq, hlast⟩
  · have hb : p.add_buy d q pr = (p, none) := by
      simp only [Position.add_buy]
      rw [heq]
    rw [hb]
    exact ⟨rfl, growsBy_refl _ _ _, fun _ => ⟨rfl, hwr⟩,
      fun hc => absurd rfl hc⟩
  · have hb : p.add_buy d q pr =
        ({ p with
            actions := p.actions ++ [PositionAction.mk p.symbol d Act.buy q pr],
            available_purchases :=
              p.available_purchases ++ [PositionAction.mk p.symbol d Act.buy q pr],
            cost_basis := p.cost_basis + q * pr,
            quantity := p.quantity + q },
          some (PositionAction.mk p.symbol d Act.buy q pr)) := by
      simp only [Position.add_buy]
      rw [heq]
      rfl
    rw [hb]
    refine ⟨rfl, growsBy_append _ _ _ _ hlast, fun hc => ?_, fun _ => ?_⟩
    · exact absurd hc (by simp)
    · simp [PositionAction.key]

lemma Position.add_sale_facts (p : Position) (d : ℤ) (q pr : ℚ)
    (pos2 : Position) (r : Option PositionAction) (sl : List PositionSale)
    (h : p.add_sale d q pr = some (pos2, r, sl)) :
    pos2.generations = p.generations ∧
    GrowsBy PositionAction.key PositionAction.date p.actions pos2.actions ∧
    (r = none → pos2 = p ∧ sl = [] ∧
      WillReject PositionAction.key PositionAction.date p.actions
        (d, Act.sell, q, pr) d) ∧
    (r ≠ none → (d, Act.sell, q, pr) ∈ pos2.actions.map PositionAction.key) := by
  rcases appendAction_spec p.actions (PositionAction.mk p.symbol d Act.sell q pr)
    with ⟨hwr, heq⟩ | ⟨hnr, heq, hlast⟩
  · have hb : p.add_sale d q pr = some (p, none, []) := by
      simp only [Position.add_sale]
      rw [heq]
    rw [hb] at h
    have h2 := Option.some.inj h
    rw [Prod.mk.injEq, Prod.mk.injEq] at h2
    obtain ⟨rfl, rfl, rfl⟩ := h2
    exact ⟨rfl, growsBy_refl _ _ _, fun _ => ⟨rfl, rfl, hwr⟩,
      fun hc => absurd rfl hc⟩
  · simp only [Position.add_sale] at h
    rw [heq] at h
    cases hos : offset_sale d pr p.available_purchases q with
    | none =>
        rw [hos] at h
        exact Option.noConfusion h
    | some out =>
        obtain ⟨sales, lots⟩ := out
        rw [hos] at h
        simp only at h
        have h2 := Option.some.inj h
        rw [Prod.mk.injEq, Prod.mk.injEq] at h2
        obtain ⟨rfl, rfl, rfl⟩ := h2
        rw [applySales_eq]
        refine ⟨rfl, growsBy_append _ _ _ _ hlast, fun hc => ?_, fun _ => ?_⟩
        · exact absurd hc (by simp)
        · simp [PositionAction.key]

lemma Position.add_generation_facts (p : Position) (d : ℤ)
    (t : GenerationType) (amt : ℚ) :
    (p.add_generation d t amt).1.actions = p.actions ∧
    GrowsBy PositionGeneration.key PositionGeneration.date p.generations
      (p.add_generation d t amt).1.generations ∧
    ((p.add_generation d t amt).2 = none → (p.add_generation d t amt).1 = p ∧
      WillReject PositionGeneration.key PositionGeneration.date p.generations
        (d, t, amt) d) ∧
    ((p.add_generation d t amt).2 ≠ none →
      (d, t, amt) ∈
        ((p.add_generation d t amt).1.generations.map PositionGeneration.key)) := by
  rcases appendGeneration_spec p.generations
      (PositionGeneration.mk p.symbol d t amt p.cost_basis)
    with ⟨hwr, heq⟩ | ⟨hnr, heq, hlast⟩
  · have hb : p.add_generation d t amt = (p, none) := by
      simp only [Position.add_generation]
      rw [heq]
    rw [hb]
    exact ⟨rfl, growsBy_refl _ _ _, fun _ => ⟨rfl, hwr⟩,
      fun hc => absurd rfl hc⟩
  · have hb : p.add_generation d t amt =
        ({ p with
            generations :=
              p.generations ++ [PositionGeneration.mk p.symbol d t amt p.cost_basis] },
          some (PositionGeneration.mk p.symbol d t amt p.cost_basis)) := by
      simp only [Position.add_generation]
      rw [heq]
    rw [hb]
    refine ⟨rfl, growsBy_append _ _ _ _ hlast, fun hc => ?_, fun _ => ?_⟩
    · exact absurd hc (by simp)
    · simp [PositionGeneration.key]

lemma setGrows_refl (ps : PositionSet) : SetGrows ps ps :=
  fun _ => ⟨growsBy_refl _ _ _, growsBy_refl _ _ _⟩

lemma setGrows_trans {ps ps2 ps3 : PositionSet} (h1 : SetGrows ps ps2)
    (h2 : SetGrows ps2 ps3) : SetGrows ps ps3 :=
  fun s => ⟨growsBy_trans (h1 s).1 (h2 s).1, growsBy_trans (h1 s).2 (h2 s).2⟩

lemma setGrows_step (ps : PositionSet) (s : String) (pos2 : Position)
    (hA : GrowsBy PositionAction.key PositionAction.date (actsOf ps s)
      pos2.actions)
    (hG : GrowsBy PositionGeneration.key PositionGeneration.date (gensOf ps s)
      pos2.generations) :
    SetGrows ps ⟨updatePos (ps.ensure_position s).positions s pos2⟩ := by
  intro s2
  by_cases hs : s2 = s
  · subst hs
    rw [actsOf_update_ensure_self, gensOf_update_ensure_self]
    exact ⟨hA, hG⟩
  · rw [actsOf_update_ensure_ne ps hs, gensOf_update_ensure_ne ps hs]
    exact ⟨growsBy_refl _ _ _, growsBy_refl _ _ _⟩

lemma addBuySet_false_facts (ps : PositionSet) (s : String) (d : ℤ)
    (q pr : ℚ) (ps2 : PositionSet) (r : Option PositionAction)
    (h : PositionSet.add_buy ps s d q pr false = some (ps2, r)) :
    SetGrows ps ps2 ∧
    WillReject PositionAction.key PositionAction.date (actsOf ps2 s)
      (d, Act.buy, q, pr) d := by
  simp only [PositionSet.add_buy] at h
  rw [ensure_lookup_self ps s] at h
  simp only [Option.getD_some] at h
  obtain ⟨hg, hgr, hrej, hacc⟩ := Position.add_buy_facts
    ((lookupPos ps.positions s).getD (Position.init s)) d q pr
  cases hpb : ((lookupPos ps.positions s).getD (Position.init s)).add_buy d q pr with
  | mk pos2 r2 =>
      rw [hpb] at h hg hgr hrej hacc
      simp only at hg hgr hrej hacc
      cases r2 with
      | none =>
          simp only at h
          have h2 := Option.some.inj h
          rw [Prod.mk.injEq] at h2
          obtain ⟨rfl, rfl⟩ := h2
          obtain ⟨hp2, hwr⟩ := hrej rfl
          constructor
          · refine setGrows_step ps s pos2 ?_ ?_
            · rw [actsOf_eq_getD, hp2]
              exact growsBy_refl _ _ _
            · rw [gensOf_eq_getD, hp2]
              exact growsBy_refl _ _ _
          · rw [actsOf_update_ensure_self, hp2]
            exact hwr
      | some a =>
          simp only at h
          have h2 := Option.some.inj h
          rw [Prod.mk.injEq] at h2
          obtain ⟨rfl, rfl⟩ := h2
          constructor
          · refine setGrows_step ps s pos2 ?_ ?_
            · rw [actsOf_eq_getD]
              exact hgr
            · rw [gensOf_eq_getD, hg]
              exact growsBy_refl _ _ _
          · rw [actsOf_update_ensure_self]
            exact Or.inl (hacc (by simp))

lemma addSaleSet_false_facts (ps : PositionSet) (s : String) (d : ℤ)
    (q pr : ℚ) (ps2 : PositionSet) (r : Option PositionAction)
    (sl : List PositionSale)
    (h : PositionSet.add_sale ps s d q pr false = some (ps2, r, sl)) :
    SetGrows ps ps2 ∧
    WillReject PositionAction.key PositionAction.date (actsOf ps2 s)
      (d, Act.sell, q, pr) d := by
  simp only [PositionSet.add_sale] at h
  rw [ensure_lookup_self ps s] at h
  simp only [Option.getD_some] at h
  cases hpb : ((lookupPos ps.positions s).getD (Position.init s)).add_sale d q pr with
  | none =>
      rw [hpb] at h
      exact Option.noConfusion h
  | some out =>
      obtain ⟨pos2, r2, sl2⟩ := out
      obtain ⟨hg, hgr, hrej, hacc⟩ := Position.add_sale_facts
        ((lookupPos ps.positions s).getD (Position.init s)) d q pr pos2 r2 sl2 hpb
      rw [hpb] at h
      cases r2 with
      | none =>
          simp only at h
          have h2 := Option.some.inj h
          rw [Prod.mk.injEq, Prod.mk.injEq] at h2
          obtain ⟨rfl, rfl, rfl⟩ := h2
          obtain ⟨hp2, -, hwr⟩ := hrej rfl
          constructor
          · refine setGrows_step ps s pos2 ?_ ?_
            · rw [actsOf_eq_getD, hp2]
              exact growsBy_refl _ _ _
            · rw [gensOf_eq_getD, hp2]
              exact growsBy_refl _ _ _
          · rw [actsOf_update_ensure_self, hp2]
            exact hwr
      | some a =>
          simp only at h
          have h2 := Option.some.inj h
          rw [Prod.mk.injEq, Prod.mk.injEq] at h2
          obtain ⟨rfl, rfl, rfl⟩ := h2
          constructor
          · refine setGrows_step ps s pos2 ?_ ?_
            · rw [actsOf_eq_getD]
              exact hgr
            · rw [gensOf_eq_getD, hg]
              exact growsBy_refl _ _ _
          · rw [actsOf_update_ensure_self]
            exact Or.inl (hacc (by simp))

lemma addBuySet_facts (ps : PositionSet) (s : String) (d : ℤ) (q pr : ℚ)
    (oc : Bool) (ps2 : PositionSet) (r : Option PositionAction)
    (h : PositionSet.add_buy ps s d q pr oc = some (ps2, r)) :
    SetGrows ps ps2 ∧
    WillReject PositionAction.key PositionAction.date (actsOf ps2 s)
      (d, Act.buy, q, pr) d := by
  cases oc with
  | false => exact addBuySet_false_facts ps s d q pr ps2 r h
  | true =>
      simp only [PositionSet.add_buy] at h
      rw [ensure_lookup_self ps s] at h
      simp only [Option.getD_some] at h
      obtain ⟨hg, hgr, hrej, hacc⟩ := Position.add_buy_facts
        ((lookupPos ps.positions s).getD (Position.init s)) d q pr
      cases hpb : ((lookupPos ps.positions s).getD (Position.init s)).add_buy d q pr with
      | mk pos2 r2 =>
          rw [hpb] at h hg hgr hrej hacc
          simp only at hg hgr hrej hacc
          cases r2 with
          | none =>
              simp only at h
              have h2 := Option.some.inj h
              rw [Prod.mk.injEq] at h2
              obtain ⟨rfl, rfl⟩ := h2
              obtain ⟨hp2, hwr⟩ := hrej rfl
              constructor
              · refine setGrows_step ps s pos2 ?_ ?_
                · rw [actsOf_eq_getD, hp2]
                  exact growsBy_refl _ _ _
                · rw [gensOf_eq_getD, hp2]
                  exact growsBy_refl _ _ _
              · rw [actsOf_update_ensure_self, hp2]
                exact hwr
          | some a =>
              simp only at h
              have hmidGrows : SetGrows ps
                  ⟨updatePos (ps.ensure_position s).positions s pos2⟩ := by
                refine setGrows_step ps s pos2 ?_ ?_
                · rw [actsOf_eq_getD]
                  exact hgr
                · rw [gensOf_eq_getD, hg]
                  exact growsBy_refl _ _ _
              have hmidMem : (d, Act.buy, q, pr) ∈
                  (actsOf ⟨updatePos (ps.ensure_position s).positions s pos2⟩ s).map
                    PositionAction.key := by
                rw [actsOf_update_ensure_self]
                exact hacc (by simp)
              cases hcs : PositionSet.add_sale
                  ⟨updatePos (ps.ensure_position s).positions s pos2⟩
                  "CASH" d (q * pr) 1 false with
              | none =>
                  rw [hcs] at h
                  exact Option.noConfusion h
              | some out3 =>
                  obtain ⟨ps3, r3, sl3⟩ := out3
                  rw [hcs] at h
                  simp only at h
                  have h2 := Option.some.inj h
                  rw [Prod.mk.injEq] at h2
                  obtain ⟨rfl, rfl⟩ := h2
                  obtain ⟨hgrows23, -⟩ := addSaleSet_false_facts
                    ⟨updatePos (ps.ensure_position s).positions s pos2⟩
                    "CASH" d (q * pr) 1 ps3 r3 sl3 hcs
                  refine ⟨setGrows_trans hmidGrows hgrows23, ?_⟩
                  exact willReject_mono (hgrows23 s).1 (Or.inl hmidMem)

lemma addSaleSet_facts (ps : PositionSet) (s : String) (d : ℤ) (q pr : ℚ)
    (oc : Bool) (ps2 : PositionSet) (r : Option PositionAction)
    (sl : List PositionSale)
    (h : PositionSet.add_sale ps s d q pr oc = some (ps2, r, sl)) :
    SetGrows ps ps2 ∧
    WillReject PositionAction.key PositionAction.date (actsOf ps2 s)
      (d, Act.sell, q, pr) d := by
  cases oc with
  | false => exact addSaleSet_false_facts ps s d q pr ps2 r sl h
  | true =>
      simp only [PositionSet.add_sale] at h
      rw [ensure_lookup_self ps s] at h
      simp only [Option.getD_some] at h
      cases hpb : ((lookupPos ps.positions s).getD (Position.init s)).add_sale d q pr with
      | none =>
          rw [hpb] at h
          exact Option.noConfusion h
      | some out =>
          obtain ⟨pos2, r2, sl2⟩ := out
          obtain ⟨hg, hgr, hrej, hacc⟩ := Position.add_sale_facts
            ((lookupPos ps.positions s).getD (Position.init s)) d q pr pos2 r2 sl2 hpb
          rw [hpb] at h
          cases r2 with
          | none =>
              simp only at h
              have h2 := Option.some.inj h
              rw [Prod.mk.injEq, Prod.mk.injEq] at h2
              obtain ⟨rfl, rfl, rfl⟩ := h2
              obtain ⟨hp2, -, hwr⟩ := hrej rfl
              constructor
              · refine setGrows_step ps s pos2 ?_ ?_
                · rw [actsOf_eq_getD, hp2]
                  exact growsBy_refl _ _ _
                · rw [gensOf_eq_getD, hp2]
                  exact growsBy_refl _ _ _
              · rw [actsOf_update_ensure_self, hp2]
                exact hwr
          | some a =>
              simp only at h
              have hmidGrows : SetGrows ps
                  ⟨updatePos (ps.ensure_position s).positions s pos2⟩ := by
                refine setGrows_step ps s pos2 ?_ ?_
                · rw [actsOf_eq_getD]
                  exact hgr
                · rw [gensOf_eq_getD, hg]
                  exact growsBy_refl _ _ _
              have hmidMem : (d, Act.sell, q, pr) ∈
                  (actsOf ⟨updatePos (ps.ensure_position s).positions s pos2⟩ s).map
                    PositionAction.key := by
                rw [actsOf_update_ensure_self]
                exact hacc (by simp)
              cases hcs : PositionSet.add_buy
                  ⟨updatePos (ps.ensure_position s).positions s pos2⟩
                  "CASH" d (q * pr) 1 false with
              | none =>
                  rw [hcs] at h
                  exact Option.noConfusion h
              | some out3 =>
                  obtain ⟨ps3, r3⟩ := out3
                  rw [hcs] at h
                  simp only at h
                  have h2 := Option.some.inj h
                  rw [Prod.mk.injEq, Prod.mk.injEq] at h2
                  obtain ⟨rfl, rfl, rfl⟩ := h2
                  obtain ⟨hgrows23, -⟩ := addBuySet_false_facts
                    ⟨updatePos (ps.ensure_position s).positions s pos2⟩
                    "CASH" d (q * pr) 1 ps3 r3 hcs
                  refine ⟨setGrows_trans hmidGrows hgrows23, ?_⟩
                  exact willReject_mono (hgrows23 s).1 (Or.inl hmidMem)

lemma addGenSet_facts (ps : PositionSet) (s : String) (d : ℤ)
    (t : GenerationType) (amt : ℚ) (oc : Bool) (ps2 : PositionSet)
    (r : Option PositionGeneration)
    (h : PositionSet.add_generation ps s d t amt oc = some (ps2, r)) :
    SetGrows ps ps2 ∧
    WillReject PositionGeneration.key PositionGeneration.date (gensOf ps2 s)
      (d, t, amt) d := by
  simp only [PositionSet.add_generation] at h
  rw [ensure_lookup_self ps s] at h
  simp only [Option.getD_some] at h
  obtain ⟨hg, hgr, hrej, hacc⟩ := Position.add_generation_facts
    ((lookupPos ps.positions s).getD (Position.init s)) d t amt
  cases hpb : ((lookupPos ps.positions s).getD (Position.init s)).add_generation d t amt with
  | mk pos2 r2 =>
      rw [hpb] at h hg hgr hrej hacc
      simp only at hg hgr hrej hacc
      cases r2 with
      | none =>
          simp only at h
          have h2 := Option.some.inj h
          rw [Prod.mk.injEq] at h2
          obtain ⟨rfl, rfl⟩ := h2
          obtain ⟨hp2, hwr⟩ := hrej rfl
          constructor
          · refine setGrows_step ps s pos2 ?_ ?_
            · rw [actsOf_eq_getD, hp2]
              exact growsBy_refl _ _ _
            · rw [gensOf_eq_getD, hp2]
              exact growsBy_refl _ _ _
          · rw [gensOf_update_ensure_self, hp2]
            exact hwr
      | some g =>
          have hmidGrows : SetGrows ps
              ⟨updatePos (ps.ensure_position s).positions s pos2⟩ := by
            refine setGrows_step ps s pos2 ?_ ?_
            · rw [actsOf_eq_getD, hg]
              exact growsBy_refl _ _ _
            · rw [gensOf_eq_getD]
              exact hgr
          have hmidMem : (d, t, amt) ∈
              (gensOf ⟨updatePos (ps.ensure_position s).positions s pos2⟩ s).map
                PositionGeneration.key := by
            rw [gensOf_update_ensure_self]
            exact hacc (by simp)
          cases oc with
          | false =>
              simp only at h
              have h2 := Option.some.inj h
              rw [Prod.mk.injEq] at h2
              obtain ⟨rfl, rfl⟩ := h2
              refine ⟨hmidGrows, ?_⟩
              exact Or.inl hmidMem
          | true =>
              simp only at h
              cases hcs : PositionSet.add_buy
                  ⟨updatePos (ps.ensure_position s).positions s pos2⟩
                  "CASH" d g.amount 1 false with
              | none =>
                  rw [hcs] at h
                  exact Option.noConfusion h
              | some out3 =>
                  obtain ⟨ps3, r3⟩ := out3
                  rw [hcs] at h
                  simp only at h
                  have h2 := Option.some.inj h
                  rw [Prod.mk.injEq] at h2
                  obtain ⟨rfl, rfl⟩ := h2
                  obtain ⟨hgrows23, -⟩ := addBuySet_false_facts
                    ⟨updatePos (ps.ensure_position s).positions s pos2⟩
                    "CASH" d g.amount 1 ps3 r3 hcs
                  refine ⟨setGrows_trans hmidGrows hgrows23, ?_⟩
                  exact willReject_mono (hgrows23 s).2 (Or.inl hmidMem)

lemma applyEvent_facts (ps : PositionSet) (e : Ev) (ps2 : PositionSet)
    (h : applyEvent ps e = some ps2) :
    SetGrows ps ps2 ∧ EvRejected ps2 e := by
  cases e with
  | buy s d q pr =>
      simp only [applyEvent] at h
      rw [Option.map_eq_some'] at h
      obtain ⟨⟨ps2x, r⟩, hadd, hfst⟩ := h
      obtain rfl : ps2x = ps2 := hfst
      exact addBuySet_facts ps s d q pr true ps2x r hadd
  | sell s d q pr =>
      simp only [applyEvent] at h
      rw [Option.map_eq_some'] at h
      obtain ⟨⟨ps2x, r, sl⟩, hadd, hfst⟩ := h
      obtain rfl : ps2x = ps2 := hfst
      exact addSaleSet_facts ps s d q pr true ps2x r sl hadd
  | gen s d t a =>
      simp only [applyEvent] at h
      rw [Option.map_eq_some'] at h
      obtain ⟨⟨ps2x, r⟩, hadd, hfst⟩ := h
      obtain rfl : ps2x = ps2 := hfst
      exact addGenSet_facts ps s d t a true ps2x r hadd

lemma evRejected_mono {ps ps2 : PositionSet} {e : Ev} (hg : SetGrows ps ps2)
    (h : EvRejected ps e) : EvRejected ps2 e := by
  cases e with
  | buy s d q pr => exact willReject_mono (hg s).1 h
  | sell s d q pr => exact willReject_mono (hg s).1 h
  | gen s d t a => exact willReject_mono (hg s).2 h

lemma applyStream_facts : ∀ (es : List Ev) (ps ps2 : PositionSet),
    applyStream ps es = some ps2 →
    SetGrows ps ps2 ∧ ∀ e ∈ es, EvRejected ps2 e
  | [], ps, ps2 => by
      intro h
      obtain rfl : ps = ps2 := Option.some.inj h
      exact ⟨setGrows_refl ps, by simp⟩
  | e :: es, ps, ps2 => by
      intro h
      rw [applyStream] at h
      cases hae : applyEvent ps e with
      | none =>
          rw [hae] at h
          exact Option.noConfusion h
      | some ps1 =>
          rw [hae] at h
          obtain ⟨hg1, hr1⟩ := applyEvent_facts ps e ps1 hae
          obtain ⟨hg2, hr2⟩ := applyStream_facts es ps1 ps2 h
          refine ⟨setGrows_trans hg1 hg2, ?_⟩
          intro e2 he2
          rcases List.mem_cons.mp he2 with rfl | hmem
          · exact evRejected_mono hg2 hr1
          · exact hr2 e2 hmem

lemma applyEvent_of_rejected (ps : PositionSet) (e : Ev)
    (h : EvRejected ps e) : applyEvent ps e = some ps := by
  cases e with
  | buy s d q pr =>
      obtain ⟨p, hp⟩ : ∃ p, lookupPos ps.positions s = some p := by
        cases hl : lookupPos ps.positions s with
        | some p => exact ⟨p, rfl⟩
        | none =>
            exfalso
            have hacts : actsOf ps s = [] := by simp [actsOf, hl]
            rw [EvRejected, hacts] at h
            rcases h with hk | ⟨b, hb, -⟩
            · simp at hk
            · simp at hb
      have hacts : actsOf ps s = p.actions := by simp [actsOf, hp]
      rw [EvRejected, hacts] at h
      have hreject : appendAction p.actions
          (PositionAction.mk p.symbol d Act.buy q pr) = (false, p.actions) :=
        appendAction_of_reject h
      have hpb : p.add_buy d q pr = (p, none) := by
        simp only [Position.add_buy]
        rw [hreject]
      simp only [applyEvent, PositionSet.add_buy, ensure_of_present hp, hp,
        Option.getD_some, hpb]
      simp [updatePos_self_id ps.positions hp]
  | sell s d q pr =>
      obtain ⟨p, hp⟩ : ∃ p, lookupPos ps.positions s = some p := by
        cases hl : lookupPos ps.positions s with
        | some p => exact ⟨p, rfl⟩
        | none =>
            exfalso
            have hacts : actsOf ps s = [] := by simp [actsOf, hl]
            rw [EvRejected, hacts] at h
            rcases h with hk | ⟨b, hb, -⟩
            · simp at hk
            · simp at hb
      have hacts : actsOf ps s = p.actions := by simp [actsOf, hp]
      rw [EvRejected, hacts] at h
      have hreject : appendAction p.actions
          (PositionAction.mk p.symbol d Act.sell q pr) = (false, p.actions) :=
        appendAction_of_reject h
      have hpb : p.add_sale d q pr = some (p, none, []) := by
        simp only [Position.add_sale]
        rw [hreject]
      simp only [applyEvent, PositionSet.add_sale, ensure_of_present hp, hp,
        Option.getD_some, hpb]
      simp [updatePos_self_id ps.positions hp]
  | gen s d t a =>
      obtain ⟨p, hp⟩ : ∃ p, lookupPos ps.positions s = some p := by
        cases hl : lookupPos ps.positions s with
        | some p => exact ⟨p, rfl⟩
        | none =>
            exfalso
            have hgens : gensOf ps s = [] := by simp [gensOf, hl]
            rw [EvRejected, hgens] at h
            rcases h with hk | ⟨b, hb, -⟩
            · simp at hk
            · simp at hb
      have hgens : gensOf ps s = p.generations := by simp [gensOf, hp]
      rw [EvRejected, hgens] at h
      have hreject : appendGeneration p.generations
          (PositionGeneration.mk p.symbol d t a p.cost_basis) =
            (false, p.generations) :=
        appendGeneration_of_reject h
      have hpb : p.add_generation d t a = (p, none) := by
        simp only [Position.add_generation]
        rw [hreject]
      simp only [applyEvent, PositionSet.add_generation, ensure_of_present hp,
        hp, Option.getD_some, hpb]
      simp [updatePos_self_id ps.positions hp]

lemma applyStream_of_rejected : ∀ (es : List Ev) (ps : PositionSet),
    (∀ e ∈ es, EvRejected ps e) → applyStream ps es = some ps
  | [], ps => fun _ => rfl
  | e :: es, ps => by
      intro h
      rw [applyStream, applyEvent_of_rejected ps e (h e (List.mem_cons_self e es))]
      exact applyStream_of_rejected es ps
        (fun e2 he2 => h e2 (List.mem_cons_of_mem e he2))

@[simp]
lemma sumQ_append (l1 l2 : List PositionAction) :
    sumQ (l1 ++ l2) = sumQ l1 + sumQ l2 := by
  simp [sumQ]

@[simp]
lemma sumNotional_append (l1 l2 : List PositionAction) :
    sumNotional (l1 ++ l2) = sumNotional l1 + sumNotional l2 := by
  simp [sumNotional]

lemma add_split_notional (a : PositionAction) (s : String) {m : ℚ}
    (hm : m ≠ 0) (hdiv : decDiv a.price m = a.price / m) :
    (a.add_split s m).quantity * (a.add_split s m).price =
      a.quantity * a.price := by
  simp only [PositionAction.add_split, hdiv]
  field_simp
  ring

lemma sumQ_addSplit (l : List PositionAction) (s : String) (m : ℚ) :
    sumQ (addSplitActions l s m) = m * sumQ l := by
  induction l with
  | nil => simp [addSplitActions]
  | cons a rest ih =>
      simp only [addSplitActions, List.map_cons, sumQ_cons] at ih ⊢
      rw [ih]
      simp only [PositionAction.add_split]
      ring

lemma sumNotional_addSplit : ∀ (l : List PositionAction) (s : String)
    (m : ℚ), m ≠ 0 → (∀ a ∈ l, decDiv a.price m = a.price / m) →
    sumNotional (addSplitActions l s m) = sumNotional l
  | [], s, m, _, _ => by simp [addSplitActions]
  | a :: rest, s, m, hm, hdiv => by
      have ha := hdiv a (List.mem_cons_self a rest)
      have hrest := sumNotional_addSplit rest s m hm
        (fun b hb => hdiv b (List.mem_cons_of_mem a hb))
      simp only [addSplitActions, List.map_cons, sumNotional_cons] at hrest ⊢
      rw [hrest, add_split_notional a s hm ha]

lemma inv_add_buy {p : Position} (h : p.LotInvariant) (d : ℤ) (q pr : ℚ) :
    ((p.add_buy d q pr).1).LotInvariant := by
  rcases appendAction_spec p.actions (PositionAction.mk p.symbol d Act.buy q pr)
    with ⟨-, heq⟩ | ⟨-, heq, -⟩
  · have hb : p.add_buy d q pr = (p, none) := by
      simp only [Position.add_buy]
      rw [heq]
    rw [hb]
    exact h
  · have hb : p.add_buy d q pr =
        ({ p with
            actions := p.actions ++ [PositionAction.mk p.symbol d Act.buy q pr],
            available_purchases :=
              p.available_purchases ++ [PositionAction.mk p.symbol d Act.buy q pr],
            cost_basis := p.cost_basis + q * pr,
            quantity := p.quantity + q },
          some (PositionAction.mk p.symbol d Act.buy q pr)) := by
      simp only [Position.add_buy]
      rw [heq]
      rfl
    rw [hb]
    obtain ⟨h1, h2⟩ := h
    constructor
    · show p.quantity + q =
        sumQ (p.available_purchases ++ [PositionAction.mk p.symbol d Act.buy q pr])
      rw [sumQ_append, h1]
      simp [PositionAction.mk.injEq]
    · show p.cost_basis + q * pr =
        sumNotional (p.available_purchases ++ [PositionAction.mk p.symbol d Act.buy q pr])
      rw [sumNotional_append, h2]
      simp

lemma inv_add_sale {p : Position} (h : p.LotInvariant) {d : ℤ} {q pr : ℚ}
    {p2 : Position} {r : Option PositionAction} {sl : List PositionSale}
    (hs : p.add_sale d q pr = some (p2, r, sl)) : p2.LotInvariant := by
  rcases appendAction_spec p.actions (PositionAction.mk p.symbol d Act.sell q pr)
    with ⟨-, heq⟩ | ⟨-, heq, -⟩
  · have hb : p.add_sale d q pr = some (p, none, []) := by
      simp only [Position.add_sale]
      rw [heq]
    rw [hb] at hs
    have h2 := Option.some.inj hs
    rw [Prod.mk.injEq, Prod.mk.injEq] at h2
    obtain ⟨rfl, rfl, rfl⟩ := h2
    exact h
  · simp only [Position.add_sale] at hs
    rw [heq] at hs
    cases hos : offset_sale d pr p.available_purchases q with
    | none =>
        rw [hos] at hs
        exact Option.noConfusion hs
    | some out =>
        obtain ⟨sales, lots⟩ := out
        rw [hos] at hs
        simp only at hs
        have h2 := Option.some.inj hs
        rw [Prod.mk.injEq, Prod.mk.injEq] at h2
        obtain ⟨rfl, rfl, rfl⟩ := h2
        obtain ⟨hq, hn⟩ := offset_sale_sums d pr p.available_purchases q
          sales lots hos
        rw [applySales_eq]
        obtain ⟨h1, h2⟩ := h
        constructor
        · show p.quantity - salesQ sales = sumQ lots
          rw [hq, h1]
        · show p.cost_basis - salesCost sales = sumNotional lots
          rw [hn, h2]

lemma inv_add_split {p : Position} (h : p.LotInvariant) {s2 : String}
    {nq : ℚ} {p2 : Position} (hs : p.add_split s2 nq = some p2)
    (hprop : decDiv nq p.quantity = nq / p.quantity)
    (hprice : ∀ a ∈ p.available_purchases,
      decDiv a.price (decDiv nq p.quantity) =
        a.price / decDiv nq p.quantity) :
    p2.LotInvariant := by
  unfold Position.add_split at hs
  split_ifs at hs with h0 hguard
  have h2 := Option.some.inj hs
  subst h2
  obtain ⟨h1, hcb⟩ := h
  have hnq : nq ≠ 0 := by
    intro hc
    subst hc
    push_neg at hguard
    obtain ⟨-, hap⟩ := hguard rfl
    rw [hap] at h1
    exact h0 (by simpa using h1)
  have hm0 : nq / p.quantity ≠ 0 := div_ne_zero hnq h0
  have hmd : decDiv nq p.quantity ≠ 0 := by
    rw [hprop]
    exact hm0
  constructor
  · show nq =
      sumQ (addSplitActions p.available_purchases s2 (decDiv nq p.quantity))
    rw [sumQ_addSplit, hprop, ← h1, div_mul_cancel₀ nq h0]
  · show p.cost_basis =
      sumNotional (addSplitActions p.available_purchases s2
        (decDiv nq p.quantity))
    rw [sumNotional_addSplit p.available_purchases s2 (decDiv nq p.quantity)
      hmd hprice, hcb]

lemma inv_add_distribution {p : Position} (h : p.LotInvariant)
    {sh : ℚ} {p2 : Position} (hs : p.add_distribution sh = some p2)
    (hprop : decDiv (p.quantity + sh) p.quantity =
      (p.quantity + sh) / p.quantity)
    (hprice : ∀ a ∈ p.available_purchases,
      decDiv a.price (decDiv (p.quantity + sh) p.quantity) =
        a.price / decDiv (p.quantity + sh) p.quantity) :
    p2.LotInvariant := by
  simp only [Position.add_distribution] at hs
  split_ifs at hs with h0 hguard
  have h2 := Option.some.inj hs
  subst h2
  obtain ⟨h1, hcb⟩ := h
  have hnq : p.quantity + sh ≠ 0 := by
    intro hc
    push_neg at hguard
    obtain ⟨-, hap⟩ := hguard hc
    rw [hap] at h1
    exact h0 (by simpa using h1)
  have hm0 : (p.quantity + sh) / p.quantity ≠ 0 := div_ne_zero hnq h0
  have hmd : decDiv (p.quantity + sh) p.quantity ≠ 0 := by
    rw [hprop]
    exact hm0
  constructor
  · show p.quantity + sh =
      sumQ (addSplitActions p.available_purchases p.symbol
        (decDiv (p.quantity + sh) p.quantity))
    rw [sumQ_addSplit, hprop, ← h1, div_mul_cancel₀ _ h0]
  · show p.cost_basis =
      sumNotional (addSplitActions p.available_purchases p.symbol
        (decDiv (p.quantity + sh) p.quantity))
    rw [sumNotional_addSplit p.available_purchases p.symbol
      (decDiv (p.quantity + sh) p.quantity) hmd hprice, hcb]

lemma int_log10_eq {x : ℚ} {e : ℤ} (hx : 0 < x)
    (h1 : (10 : ℚ) ^ e ≤ x) (h2 : x < (10 : ℚ) ^ (e + 1)) :
    Int.log 10 x = e := by
  have hb : 1 < (10 : ℕ) := by norm_num
  have h1x : ((10 : ℕ) : ℚ) ^ e ≤ x := by exact_mod_cast h1
  have h2x : x < ((10 : ℕ) : ℚ) ^ (e + 1) := by exact_mod_cast h2
  have hle : e ≤ Int.log 10 x := (Int.zpow_le_iff_le_log hb hx).mp h1x
  have hlt : Int.log 10 x < e + 1 := (Int.lt_zpow_iff_log_lt hb hx).mp h2x
  omega

lemma decRound_eval_lo {x : ℚ} {e n : ℤ} (hx : 0 < x)
    (h1 : (10 : ℚ) ^ e ≤ x) (h2 : x < (10 : ℚ) ^ (e + 1))
    (hn : (n : ℚ) ≤ x * (10 : ℚ) ^ (27 - e))
    (hn2 : x * (10 : ℚ) ^ (27 - e) < (n : ℚ) + 1 / 2) :
    decRound x = (n : ℚ) / (10 : ℚ) ^ (27 - e) := by
  have hne : ¬ x = 0 := ne_of_gt hx
  have habs : |x| = x := abs_of_pos hx
  have hlog : Int.log 10 x = e := int_log10_eq hx h1 h2
  have hfloor : ⌊x * (10 : ℚ) ^ (27 - e)⌋ = n :=
    Int.floor_eq_iff.mpr ⟨hn, by linarith⟩
  have hfr : x * (10 : ℚ) ^ (27 - e) - (n : ℚ) < 1 / 2 := by linarith
  have hnneg : ¬ x < 0 := not_lt.mpr (le_of_lt hx)
  simp only [decRound, roundHalfEven, hne, if_false, habs, hlog, hfloor,
    hfr, if_true, hnneg]

lemma decRound_exact {x : ℚ} {e n : ℤ} (hx : 0 < x)
    (h1 : (10 : ℚ) ^ e ≤ x) (h2 : x < (10 : ℚ) ^ (e + 1))
    (hn : x * (10 : ℚ) ^ (27 - e) = (n : ℚ)) :
    decRound x = x := by
  have h10 : ((10 : ℚ) ^ (27 - e)) ≠ 0 := zpow_ne_zero _ (by norm_num)
  have hlo := decRound_eval_lo hx h1 h2 (le_of_eq hn.symm)
    (by rw [hn]; linarith)
  rw [hlo, ← hn, mul_div_cancel_right₀ _ h10]

lemma decDiv_zero_left (m : ℚ) : decDiv 0 m = 0 := by
  simp [decDiv, decRound]

lemma decRound_four_thirds :
    decRound ((4 : ℚ) / 3) = 1333333333333333333333333333 / 10 ^ 27 := by
  have h := decRound_eval_lo (x := (4 : ℚ) / 3) (e := 0)
    (n := 1333333333333333333333333333) (by norm_num) (by norm_num)
    (by norm_num) (by norm_num) (by norm_num)
  rw [h]
  norm_num

lemma decRound_one_third :
    decRound ((1 : ℚ) / 3) = 3333333333333333333333333333 / 10 ^ 28 := by
  have h := decRound_eval_lo (x := (1 : ℚ) / 3) (e := -1)
    (n := 3333333333333333333333333333) (by norm_num) (by norm_num)
    (by norm_num) (by norm_num) (by norm_num)
  rw [h]
  norm_num

lemma decDiv_two_one : decDiv (2 : ℚ) 1 = 2 := by
  rw [decDiv, show (2 : ℚ) / 1 = 2 by norm_num]
  exact decRound_exact (e := 0) (n := 2 * 10 ^ 27) (by norm_num)
    (by norm_num) (by norm_num) (by norm_num)

lemma decDiv_hundred_two : decDiv (100 : ℚ) 2 = 50 := by
  rw [decDiv, show (100 : ℚ) / 2 = 50 by norm_num]
  exact decRound_exact (e := 1) (n := 5 * 10 ^ 27) (by norm_num)
    (by norm_num) (by norm_num) (by norm_num)

lemma map_action_roundtrip (l : List PositionAction) :
    l.map (PositionAction.from_python ∘ PositionAction.to_python) = l := by
  induction l with
  | nil => rfl
  | cons a rest ih =>
      simp only [List.map_cons, Function.comp_apply, action_roundtrip, ih]

lemma map_generation_roundtrip (l : List PositionGeneration) :
    l.map (PositionGeneration.from_python ∘ PositionGeneration.to_python) = l := by
  induction l with
  | nil => rfl
  | cons a rest ih =>
      simp only [List.map_cons, Function.comp_apply, generation_roundtrip, ih]

lemma map_sale_roundtrip (l : List PositionSale) :
    l.map (PositionSale.from_python ∘ PositionSale.to_python) = l := by
  induction l with
  | nil => rfl
  | cons a rest ih =>
      simp only [List.map_cons, Function.comp_apply, sale_roundtrip, ih]

lemma map_action_copy (l : List PositionAction) :
    l.map PositionAction.copy = l := by
  induction l with
  | nil => rfl
  | cons a rest ih => simp only [List.map_cons, action_copy_id, ih]

lemma map_generation_copy (l : List PositionGeneration) :
    l.map PositionGeneration.copy = l := by
  induction l with
  | nil => rfl
  | cons a rest ih => simp only [List.map_cons, generation_copy_id, ih]

lemma map_sale_copy (l : List PositionSale) :
    l.map PositionSale.copy = l := by
  induction l with
  | nil => rfl
  | cons a rest ih => simp only [List.map_cons, sale_copy_id, ih]

lemma position_roundtrip (p : Position) :
    Position.from_python p.to_python = p := by
  cases p
  simp [Position.to_python, Position.from_python, List.map_map,
    map_action_roundtrip, map_generation_roundtrip, map_sale_roundtrip]

lemma position_copy_id (p : Position) : p.copy = p := by
  cases p
  simp [Position.copy, map_action_copy, map_generation_copy, map_sale_copy]

lemma set_roundtrip_aux : ∀ l : List (String × Position),
    (l.map (fun kv => (kv.1, Position.to_python kv.2))).map
      (fun kv => (kv.1, Position.from_python kv.2)) = l
  | [] => rfl
  | (k, p) :: rest => by
      simp only [List.map_cons, set_roundtrip_aux rest]
      simp [position_roundtrip]

lemma position_set_roundtrip (ps : PositionSet) :
    PositionSet.from_python ps.to_python = ps := by
  cases ps with
  | mk l =>
      unfold PositionSet.to_python PositionSet.from_python
      exact congrArg PositionSet.mk (set_roundtrip_aux l)

lemma set_copy_aux : ∀ l : List (String × Position),
    l.map (fun kv => (kv.1, Position.copy kv.2)) = l
  | [] => rfl
  | (k, p) :: rest => by
      simp only [List.map_cons, set_copy_aux rest]
      simp [position_copy_id]

lemma position_set_copy_id (ps : PositionSet) : ps.copy = ps := by
  cases ps with
  | mk l =>
      unfold PositionSet.copy
      exact congrArg PositionSet.mk (set_copy_aux l)

lemma add_buy_sales_frame (p : Position) (d : ℤ) (q pr : ℚ) :
    ((p.add_buy d q pr).1).sales = p.sales := by
  rcases appendAction_spec p.actions (PositionAction.mk p.symbol d Act.buy q pr)
    with ⟨-, heq⟩ | ⟨-, heq, -⟩
  · have hb : p.add_buy d q pr = (p, none) := by
      simp only [Position.add_buy]
      rw [heq]
    rw [hb]
  · have hb : p.add_buy d q pr =
        ({ p with
            actions := p.actions ++ [PositionAction.mk p.symbol d Act.buy q pr],
            available_purchases :=
              p.available_purchases ++ [PositionAction.mk p.symbol d Act.buy q pr],
            cost_basis := p.cost_basis + q * pr,
            quantity := p.quantity + q },
          some (PositionAction.mk p.symbol d Act.buy q pr)) := by
      simp only [Position.add_buy]
      rw [heq]
      rfl
    rw [hb]

lemma add_sale_sales_frame {p : Position} {d : ℤ} {q pr : ℚ} {p2 : Position}
    {r : Option PositionAction} {sl : List PositionSale}
    (hs : p.add_sale d q pr = some (p2, r, sl)) : p2.sales = p.sales := by
  rcases appendAction_spec p.actions (PositionAction.mk p.symbol d Act.sell q pr)
    with ⟨-, heq⟩ | ⟨-, heq, -⟩
  · have hb : p.add_sale d q pr = some (p, none, []) := by
      simp only [Position.add_sale]
      rw [heq]
    rw [hb] at hs
    have h2 := Option.some.inj hs
    rw [Prod.mk.injEq, Prod.mk.injEq] at h2
    obtain ⟨rfl, rfl, rfl⟩ := h2
    rfl
  · simp only [Position.add_sale] at hs
    rw [heq] at hs
    cases hos : offset_sale d pr p.available_purchases q with
    | none =>
        rw [hos] at hs
        exact Option.noConfusion hs
    | some out =>
        obtain ⟨sales, lots⟩ := out
        rw [hos] at hs
        simp only at hs
        have h2 := Option.some.inj hs
        rw [Prod.mk.injEq, Prod.mk.injEq] at h2
        obtain ⟨rfl, rfl, rfl⟩ := h2
        rw [applySales_eq]

lemma runPosEvents_sales_frame : ∀ (evs : List PosEv) (p p2 : Position),
    runPosEvents p evs = some p2 → p2.sales = p.sales
  | [], p, p2 => fun h => by
      obtain rfl : p = p2 := Option.some.inj h
      rfl
  | e :: evs, p, p2 => by
      intro h
      rw [runPosEvents] at h
      cases hae : applyPosEv p e with
      | none =>
          rw [hae] at h
          exact Option.noConfusion h
      | some p1 =>
          rw [hae] at h
          have h1 : p1.sales = p.sales := by
            cases e with
            | pbuy d q pr =>
                simp only [applyPosEv] at hae
                obtain rfl : (p.add_buy d q pr).1 = p1 := Option.some.inj hae
                exact add_buy_sales_frame p d q pr
            | psell d q pr =>
                simp only [applyPosEv] at hae
                rw [Option.map_eq_some'] at hae
                obtain ⟨⟨px, r, sl⟩, hadd, hfst⟩ := hae
                obtain rfl : px = p1 := hfst
                exact add_sale_sales_frame hadd
          rw [runPosEvents_sales_frame evs p1 p2 h, h1]

/-- C2: `offset_sale` is exactly the spec's FIFO head consumption
(`consumeSpec`): lots are consumed strictly from the head in acquisition
order, the head lot is split when the remaining sale quantity is smaller
than its remaining quantity (the remainder stays as the new head), and one
`PositionSale` is produced per lot or partial lot consumed; concretely,
buying 4 at 100 then 4 at 120 and selling 6 yields two sale records (4 at
purchase price 100, 2 at purchase price 120) and a single remaining open lot
of 2 at 120. -/
theorem C2_fifo_offset :
    (∀ (d : ℤ) (pr : ℚ) (lots : List PositionAction) (n : ℚ),
      offset_sale d pr lots n = consumeSpec d pr lots n) ∧
    ((((Position.init "S").add_buy 0 4 100).1.add_buy 1 4 120).1.add_sale 2 6 130 =
      some ({
          symbol := "S",
          actions := [⟨"S", 0, Act.buy, 4, 100⟩, ⟨"S", 1, Act.buy, 4, 120⟩,
            ⟨"S", 2, Act.sell, 6, 130⟩],
          generations := [], quantity := 2, cost_basis := 240,
          available_purchases := [⟨"S", 1, Act.buy, 2, 120⟩], sales := [] },
        some ⟨"S", 2, Act.sell, 6, 130⟩,
        [⟨"S", 4, 0, 100, 2, 130⟩, ⟨"S", 2, 1, 120, 2, 130⟩])) :=
  ⟨fun d pr lots n => offset_sale_eq_consumeSpec d pr lots n, by
    norm_num [Position.init, Position.add_buy, Position.add_sale, appendAction,
      uniqueAppendAction, PositionAction.key, PositionAction.copy, offset_sale,
      applySales, min_def]⟩

/-- C3: a ledger `append` returns `false` and leaves the ledger unchanged
exactly when the identity key is already present or the event's date
strictly precedes the last entry's date, and otherwise returns `true` and
appends; a rejected `Position.add_buy` / `add_sale` returns the no-op
signal with the position (hence `quantity` and `cost_basis`) unchanged. -/
theorem C3_append_gate :
    (∀ (l : List PositionAction) (a : PositionAction),
      (appendAction l a = (false, l) ↔
        WillReject PositionAction.key PositionAction.date l a.key a.date) ∧
      (¬ WillReject PositionAction.key PositionAction.date l a.key a.date →
        appendAction l a = (true, l ++ [a]))) ∧
    (∀ (l : List PositionGeneration) (g : PositionGeneration),
      (appendGeneration l g = (false, l) ↔
        WillReject PositionGeneration.key PositionGeneration.date l g.key g.date) ∧
      (¬ WillReject PositionGeneration.key PositionGeneration.date l g.key g.date →
        appendGeneration l g = (true, l ++ [g]))) ∧
    (∀ (p : Position) (d : ℤ) (q pr : ℚ),
      (p.add_buy d q pr).2 = none → (p.add_buy d q pr).1 = p) ∧
    (∀ (p : Position) (d : ℤ) (q pr : ℚ) (p2 : Position)
      (sl : List PositionSale),
      p.add_sale d q pr = some (p2, none, sl) → p2 = p ∧ sl = []) := by
  refine ⟨fun l a => ⟨⟨?_, fun hw => appendAction_of_reject hw⟩, ?_⟩,
    fun l g => ⟨⟨?_, fun hw => appendGeneration_of_reject hw⟩, ?_⟩, ?_, ?_⟩
  · intro he
    rcases appendAction_spec l a with ⟨hw, -⟩ | ⟨-, heq, -⟩
    · exact hw
    · rw [heq] at he
      have := congrArg Prod.fst he
      simp at this
  · intro hnw
    rcases appendAction_spec l a with ⟨hw, -⟩ | ⟨-, heq, -⟩
    · exact absurd hw hnw
    · exact heq
  · intro he
    rcases appendGeneration_spec l g with ⟨hw, -⟩ | ⟨-, heq, -⟩
    · exact hw
    · rw [heq] at he
      have := congrArg Prod.fst he
      simp at this
  · intro hnw
    rcases appendGeneration_spec l g with ⟨hw, -⟩ | ⟨-, heq, -⟩
    · exact absurd hw hnw
    · exact heq
  · intro p d q pr hn
    exact ((Position.add_buy_facts p d q pr).2.2.1 hn).1
  · intro p d q pr p2 sl hs
    obtain ⟨-, -, hrej, -⟩ :=
      Position.add_sale_facts p d q pr p2 none sl hs
    obtain ⟨hp, hsl, -⟩ := hrej rfl
    exact ⟨hp, hsl⟩

/-- C3 witness: a sell dated before the last ledger entry is rejected and
leaves the position unchanged. -/
theorem C3_witness :
    (((Position.init "A").add_buy 5 1 10).1).add_sale 3 1 10 =
      some ((((Position.init "A").add_buy 5 1 10).1), none, []) ∧
    ((((Position.init "A").add_buy 5 1 10).1) =
        (((Position.init "A").add_buy 5 1 10).1) ∧
      ([] : List PositionSale) = []) :=
  ⟨by
    norm_num [Position.init, Position.add_buy, Position.add_sale, appendAction,
      uniqueAppendAction, PositionAction.key, PositionAction.copy],
    C3_append_gate.2.2.2 (((Position.init "A").add_buy 5 1 10).1) 3 1 10
      (((Position.init "A").add_buy 5 1 10).1) [] (by
        norm_num [Position.init, Position.add_buy, Position.add_sale,
          appendAction, uniqueAppendAction, PositionAction.key,
          PositionAction.copy])⟩

/-- C4: applying the same event stream (buys, sells, income events, with
cash offsetting enabled) to a `PositionSet` twice yields exactly the same
state — and hence the same serialized `to_python` form — as applying it
once: on the second pass every event is rejected as a duplicate or stale
arrival. -/
theorem C4_replay_idempotent (ps : PositionSet) (es : List Ev) :
    (applyStream ps es).bind (fun x => applyStream x es) = applyStream ps es ∧
    ((applyStream ps es).bind (fun x => applyStream x es)).map
        PositionSet.to_python =
      (applyStream ps es).map PositionSet.to_python := by
  cases h : applyStream ps es with
  | none => simp
  | some ps1 =>
      obtain ⟨-, hrej⟩ := applyStream_facts es ps ps1 h
      have h2 : applyStream ps1 es = some ps1 :=
        applyStream_of_rejected es ps1 hrej
      constructor
      · simp [h2]
      · simp [h2]

/-- C5: (a) with positive open-lot quantities, `offset_sale` raises (models
as `none`) exactly when the requested quantity exceeds the total remaining
quantity of the queue; (b) `add_split` and `add_distribution` on a
zero-quantity position raise (the division-by-zero multiplier). -/
theorem C5_fatal_errors :
    (∀ (d : ℤ) (pr : ℚ) (lots : List PositionAction) (n : ℚ),
      (∀ a ∈ lots, 0 < a.quantity) →
      (offset_sale d pr lots n = none ↔ sumQ lots < n)) ∧
    (∀ (p : Position) (s2 : String) (nq : ℚ), p.quantity = 0 →
      p.add_split s2 nq = none) ∧
    (∀ (p : Position) (sh : ℚ), p.quantity = 0 →
      p.add_distribution sh = none) := by
  refine ⟨fun d pr lots n hpos => offset_sale_none_iff d pr lots n hpos,
    fun p s2 nq h0 => ?_, fun p sh h0 => ?_⟩
  · simp [Position.add_split, h0]
  · simp [Position.add_distribution, h0]

/-- C5 witness: an oversell against an empty queue raises, and a split or a
distribution on a fresh (zero-quantity) position raises. -/
theorem C5_witness :
    (offset_sale 0 10 [] 1 = none ↔ sumQ [] < 1) ∧
    (Position.init "A").add_split "B" 2 = none ∧
    (Position.init "A").add_distribution 3 = none :=
  ⟨C5_fatal_errors.1 0 10 [] 1 (by simp),
    C5_fatal_errors.2.1 (Position.init "A") "B" 2 rfl,
    C5_fatal_errors.2.2 (Position.init "A") 3 rfl⟩

/-- C7: a sale record's derived quantities satisfy
`profit = (sale_price - purchase_price) * quantity`,
`investment = quantity * purchase_price`,
`days_held = sale_date - purchase_date` and
`interest = profit / investment / (days_held / 365.25)` with year fraction
`1` when `days_held = 0`; and the concrete AAPL example (buy 4 at 213.49 on
day 20250317, sell 2 at 220.49 the next day) yields the stated record,
remaining lot, cost basis, profit 14 and annualized return
`14 / 426.98 / (1 / 365.25) ≈ 11.976`. -/
theorem C7_sale_formulas :
    (∀ s : PositionSale,
      s.profit = (s.sale_price - s.purchase_price) * s.quantity ∧
      s.investment = s.quantity * s.purchase_price ∧
      s.days_held = s.sale_date - s.purchase_date ∧
      s.interest = s.profit / s.investment /
        (if s.days_held = 0 then 1 else (s.days_held : ℚ) / (365.25 : ℚ))) ∧
    (((Position.init "AAPL").add_buy 20250317 4 (213.49 : ℚ)).1.add_sale
        20250318 2 (220.49 : ℚ) =
      some ({
          symbol := "AAPL",
          actions := [⟨"AAPL", 20250317, Act.buy, 4, (213.49 : ℚ)⟩,
            ⟨"AAPL", 20250318, Act.sell, 2, (220.49 : ℚ)⟩],
          generations := [], quantity := 2, cost_basis := (426.98 : ℚ),
          available_purchases := [⟨"AAPL", 20250317, Act.buy, 2, (213.49 : ℚ)⟩],
          sales := [] },
        some ⟨"AAPL", 20250318, Act.sell, 2, (220.49 : ℚ)⟩,
        [⟨"AAPL", 2, 20250317, (213.49 : ℚ), 20250318, (220.49 : ℚ)⟩])) ∧
    (PositionSale.mk "AAPL" 2 20250317 (213.49 : ℚ) 20250318
        (220.49 : ℚ)).profit = 14 ∧
    (PositionSale.mk "AAPL" 2 20250317 (213.49 : ℚ) 20250318
        (220.49 : ℚ)).interest =
      14 / (426.98 : ℚ) / ((1 : ℚ) / (365.25 : ℚ)) ∧
    (11.9759 : ℚ) <
      (PositionSale.mk "AAPL" 2 20250317 (213.49 : ℚ) 20250318
        (220.49 : ℚ)).interest ∧
    (PositionSale.mk "AAPL" 2 20250317 (213.49 : ℚ) 20250318
        (220.49 : ℚ)).interest < (11.976 : ℚ) :=
  ⟨fun s => ⟨rfl, rfl, rfl, rfl⟩,
    by
      norm_num [Position.init, Position.add_buy, Position.add_sale,
        appendAction, uniqueAppendAction, PositionAction.key,
        PositionAction.copy, offset_sale, applySales, min_def],
    by norm_num [PositionSale.profit],
    by
      norm_num [PositionSale.interest, PositionSale.profit,
        PositionSale.investment, PositionSale.days_held],
    by
      norm_num [PositionSale.interest, PositionSale.profit,
        PositionSale.investment, PositionSale.days_held],
    by
      norm_num [PositionSale.interest, PositionSale.profit,
        PositionSale.investment, PositionSale.days_held]⟩

/-- C8: whenever a `PositionSet` operation with `offset_cash` enabled
accepts its primary event, the result is exactly the primary mutation
followed by the mirror cash event with offsetting suppressed: an accepted
buy applies `add_sale "CASH" date (quantity * price) 1 false`, and an
accepted sale or income event applies
`add_buy "CASH" date amount 1 false`. -/
theorem C8_cash_offset (ps : PositionSet) (s : String) (d : ℤ) (q pr : ℚ) :
    (∀ (ps2 : PositionSet) (a : PositionAction),
      PositionSet.add_buy ps s d q pr false = some (ps2, some a) →
      PositionSet.add_buy ps s d q pr true =
        (PositionSet.add_sale ps2 "CASH" d (q * pr) 1 false).map
          (fun out => (out.1, some a))) ∧
    (∀ (ps2 : PositionSet) (a : PositionAction) (sl : List PositionSale),
      PositionSet.add_sale ps s d q pr false = some (ps2, some a, sl) →
      PositionSet.add_sale ps s d q pr true =
        (PositionSet.add_buy ps2 "CASH" d (q * pr) 1 false).map
          (fun out => (out.1, some a, sl))) ∧
    (∀ (t : GenerationType) (amt : ℚ) (ps2 : PositionSet)
      (g : PositionGeneration),
      PositionSet.add_generation ps s d t amt false = some (ps2, some g) →
      PositionSet.add_generation ps s d t amt true =
        (PositionSet.add_buy ps2 "CASH" d g.amount 1 false).map
          (fun out => (out.1, some g))) := by
  refine ⟨?_, ?_, ?_⟩
  · intro ps2 a h
    simp only [PositionSet.add_buy] at h ⊢
    cases hpb : ((lookupPos (ps.ensure_position s).positions s).getD
        (Position.init s)).add_buy d q pr with
    | mk pos2x r2 =>
        rw [hpb] at h
        cases r2 with
        | none =>
            simp only at h
            have h2 := Option.some.inj h
            rw [Prod.mk.injEq] at h2
            exact Option.noConfusion h2.2
        | some a2 =>
            simp only at h ⊢
            have h2 := Option.some.inj h
            rw [Prod.mk.injEq] at h2
            obtain ⟨rfl, ha⟩ := h2
            obtain rfl := Option.some.inj ha
            cases hcs : PositionSet.add_sale
                ⟨updatePos (ps.ensure_position s).positions s pos2x⟩
                "CASH" d (q * pr) 1 false with
            | none => simp [hcs]
            | some out3 =>
                obtain ⟨ps3, r3, sl3⟩ := out3
                simp [hcs]
  · intro ps2 a sl h
    simp only [PositionSet.add_sale] at h ⊢
    cases hpb : ((lookupPos (ps.ensure_position s).positions s).getD
        (Position.init s)).add_sale d q pr with
    | none =>
        rw [hpb] at h
        exact Option.noConfusion h
    | some out =>
        obtain ⟨pos2x, r2, sl2⟩ := out
        rw [hpb] at h
        cases r2 with
        | none =>
            simp only at h
            have h2 := Option.some.inj h
            rw [Prod.mk.injEq, Prod.mk.injEq] at h2
            exact Option.noConfusion h2.2.1
        | some a2 =>
            simp only at h ⊢
            have h2 := Option.some.inj h
            rw [Prod.mk.injEq, Prod.mk.injEq] at h2
            obtain ⟨rfl, ha, rfl⟩ := h2
            obtain rfl := Option.some.inj ha
            cases hcs : PositionSet.add_buy
                ⟨updatePos (ps.ensure_position s).positions s pos2x⟩
                "CASH" d (q * pr) 1 false with
            | none => simp [hcs]
            | some out3 =>
                obtain ⟨ps3, r3⟩ := out3
                simp [hcs]
  · intro t amt ps2 g h
    simp only [PositionSet.add_generation] at h ⊢
    cases hpb : ((lookupPos (ps.ensure_position s).positions s).getD
        (Position.init s)).add_generation d t amt with
    | mk pos2x r2 =>
        rw [hpb] at h
        cases r2 with
        | none =>
            simp only at h
            have h2 := Option.some.inj h
            rw [Prod.mk.injEq] at h2
            exact Option.noConfusion h2.2
        | some g2 =>
            simp only at h ⊢
            have h2 := Option.some.inj h
            rw [Prod.mk.injEq] at h2
            obtain ⟨rfl, hg⟩ := h2
            obtain rfl := Option.some.inj hg
            cases hcs : PositionSet.add_buy
                ⟨updatePos (ps.ensure_position s).positions s pos2x⟩
                "CASH" d g2.amount 1 false with
            | none => simp [hcs]
            | some out3 =>
                obtain ⟨ps3, r3⟩ := out3
                simp [hcs]

/-- C8 witness: a concrete accepted buy on an empty set equals the primary
mutation followed by the suppressed-offset cash sale. -/
theorem C8_witness :
    PositionSet.add_buy ⟨[]⟩ "A" 0 2 5 true =
      (PositionSet.add_sale
        ⟨[("A", ⟨"A", [⟨"A", 0, Act.buy, 2, 5⟩], [], 2, 10,
          [⟨"A", 0, Act.buy, 2, 5⟩], []⟩)]⟩
        "CASH" 0 (2 * 5) 1 false).map
        (fun out => (out.1, some ⟨"A", 0, Act.buy, 2, 5⟩)) :=
  (C8_cash_offset ⟨[]⟩ "A" 0 2 5).1
    ⟨[("A", ⟨"A", [⟨"A", 0, Act.buy, 2, 5⟩], [], 2, 10,
      [⟨"A", 0, Act.buy, 2, 5⟩], []⟩)]⟩
    ⟨"A", 0, Act.buy, 2, 5⟩
    (by
      norm_num [PositionSet.add_buy, PositionSet.ensure_position, lookupPos,
        updatePos, Position.init, Position.add_buy, appendAction,
        uniqueAppendAction, PositionAction.key, PositionAction.copy])

/-- C9: serialization round-trips losslessly — `from_python (to_python x)`
reconstructs a state equal to `x` in every field for both `Position` and
`PositionSet` — and `copy` produces an equal state; since every copy is a
deep value copy, mutating the copy in the state-passing model cannot affect
the original. -/
theorem C9_serialization_roundtrip :
    (∀ p : Position, Position.from_python p.to_python = p ∧ p.copy = p) ∧
    (∀ ps : PositionSet,
      PositionSet.from_python ps.to_python = ps ∧ ps.copy = ps) :=
  ⟨fun p => ⟨position_roundtrip p, position_copy_id p⟩,
    fun ps => ⟨position_set_roundtrip ps, position_set_copy_id ps⟩⟩

/-- C10: `Position.add_sale` never touches the position's own `sales`
ledger (the realized records are only returned to the caller), so a
position built solely through buys and sells always has an empty `sales`
field and serializes with an empty sales list. -/
theorem C10_sales_ledger_frame :
    (∀ (p : Position) (d : ℤ) (q pr : ℚ) (p2 : Position)
      (r : Option PositionAction) (sl : List PositionSale),
      p.add_sale d q pr = some (p2, r, sl) → p2.sales = p.sales) ∧
    (∀ (sym : String) (evs : List PosEv) (p2 : Position),
      runPosEvents (Position.init sym) evs = some p2 →
      p2.sales = [] ∧ (p2.to_python).sales = []) := by
  refine ⟨fun p d q pr p2 r sl h => add_sale_sales_frame h,
    fun sym evs p2 h => ?_⟩
  have hs : p2.sales = [] := by
    rw [runPosEvents_sales_frame evs (Position.init sym) p2 h]
    rfl
  exact ⟨hs, by simp [Position.to_python, hs]⟩

/-- C10 witness: a buy followed by a full sell leaves the `sales` field and
its serialization empty. -/
theorem C10_witness :
    ((⟨"A", [⟨"A", 0, Act.buy, 1, 10⟩, ⟨"A", 1, Act.sell, 1, 12⟩], [], 0, 0,
        [], []⟩ : Position)).sales = [] ∧
    (((⟨"A", [⟨"A", 0, Act.buy, 1, 10⟩, ⟨"A", 1, Act.sell, 1, 12⟩], [], 0, 0,
        [], []⟩ : Position)).to_python).sales = [] :=
  C10_sales_ledger_frame.2 "A" [PosEv.pbuy 0 1 10, PosEv.psell 1 1 12]
    ⟨"A", [⟨"A", 0, Act.buy, 1, 10⟩, ⟨"A", 1, Act.sell, 1, 12⟩], [], 0, 0,
      [], []⟩
    (by
      norm_num [runPosEvents, applyPosEv, Position.init, Position.add_buy,
        Position.add_sale, appendAction, uniqueAppendAction,
        PositionAction.key, PositionAction.copy, offset_sale, applySales,
        min_def])

end Funance
